import Mathlib

/-!
Shallow embedding of the possible-worlds engine of the quantum-werewolf
repository (files src/game/types.rs, src/game/state.rs, src/util.rs),
together with theorems settling the frozen claims about it.

Randomness: the Rust code draws from a thread-local RNG via
QwwIteratorExt::rand (src/util.rs), which collects an iterator and removes
the element at a uniformly random index below the length.  We model each
sampling site by an explicit oracle argument (a natural number, or a stream
of natural numbers indexed by use site); the sampled element is the one at
position oracle modulo length, so every element of the candidate list is a
possible outcome, exactly matching the support of the uniform draw.
-/

namespace QWW

/-- The faction (party) of a player; src/game/types.rs, enum Faction. -/
inductive Faction where
  | Werewolves : Faction
  | Village : Faction
deriving DecidableEq, Repr

/-- A player role; src/game/types.rs, enum Role. -/
inductive Role where
  | Detective : Role
  | Healer : Role
  | Villager : Role
  | Werewolf : Nat → Role
deriving DecidableEq, Repr

/-- Role::default_faction from src/game/types.rs. -/
def Role.defaultFaction : Role → Faction
  | Role.Detective => Faction.Village
  | Role.Healer => Faction.Village
  | Role.Villager => Faction.Village
  | Role.Werewolf _ => Faction.Werewolves

/-- One possible quantum state of the game; struct Universe in
src/game/types.rs.  Rust Vec fields become lists, in field order. -/
structure Universe where
  alive : List Bool
  roles : List Role
  factions : List Faction
  heals : List Nat
  kills : List Nat
deriving DecidableEq, Repr

/-- Faction::wincon from src/game/types.rs: whether a faction's win
condition is met in the given universe. -/
def Faction.wincon (f : Faction) (u : Universe) : Bool :=
  match f with
  | Faction.Werewolves =>
      !((u.factions.zip u.alive).any (fun p => decide (p.1 = Faction.Village) && p.2))
  | Faction.Village =>
      let villagerAlive :=
        (u.factions.zip u.alive).any (fun p => decide (p.1 = Faction.Village) && p.2)
      let threatAlive :=
        (u.factions.zip u.alive).any (fun p => decide (p.1 = Faction.Werewolves) && p.2)
      villagerAlive && !threatAlive

/-- Universe::game_over from src/game/types.rs. -/
def Universe.gameOver (u : Universe) (night : Bool) : Bool :=
  u.alive.all (fun a => !a) ||
  (!night && decide ((u.alive.filter (fun a => a)).length < 2)) ||
  (!night && u.factions.any (fun f => f.wincon u))

/-- Universe::kill from src/game/types.rs: at night, record a pending kill
unless the target is healed; during the day, set the target dead. -/
def Universe.kill (u : Universe) (playerIdx : Nat) (night : Bool) : Universe :=
  if night then
    if playerIdx ∈ u.heals then u
    else { u with kills := u.kills ++ [playerIdx] }
  else
    { u with alive := u.alive.set playerIdx false }

/-- Modelled from the spec: Universe::heal is called by src/game/state.rs but
its definition is not part of the sources under src; the spec (section 4.4,
Heal) says to record the target as protected this night in that world. -/
def Universe.heal (u : Universe) (playerIdx : Nat) : Universe :=
  { u with heals := u.heals ++ [playerIdx] }

/-- From<Vec<Role>> for Universe in src/game/types.rs: a fresh universe with
every player alive and factions derived from roles. -/
def Universe.ofRoles (roles : List Role) : Universe :=
  { alive := List.replicate roles.length true
    roles := roles
    factions := roles.map Role.defaultFaction
    heals := []
    kills := [] }

/-- A multiverse is the plain collection of universes (struct
Multiverse(Vec of Universe) in src/game/types.rs). -/
abbrev Multiverse := List Universe

/-- QwwIteratorExt::rand from src/util.rs, with the uniform index draw
replaced by an oracle: the sampled element is the one at position
pick modulo length; None exactly when the list is empty. -/
def rand (pick : Nat) (l : List α) : Option α :=
  l.get? (pick % l.length)

/-- Multiverse::num_players from src/game/types.rs (the alive-vector length
of the first universe; 0 for the empty multiverse, where Rust would panic). -/
def numPlayers (m : Multiverse) : Nat :=
  match m with
  | [] => 0
  | u :: _ => u.alive.length

/-- Multiverse::alive from src/game/types.rs: indices of players alive in at
least one universe. -/
def aliveIndices (m : Multiverse) : List Nat :=
  (List.range (numPlayers m)).filter (fun idx => m.any (fun u => u.alive.getD idx false))

/-- One step of the permutation construction in Multiverse::new
(src/game/types.rs): replace every current permutation with one fork per
currently-Villager slot, placing the role into that slot. -/
def placeStep (perms : List (List Role)) (role : Role) : List (List Role) :=
  perms.flatMap (fun perm =>
    (List.range perm.length).filterMap (fun i =>
      if perm.getD i Role.Villager = Role.Villager then some (perm.set i role) else none))

/-- Multiverse::new from src/game/types.rs: all possible role distributions,
starting from the all-Villager assignment. -/
def Multiverse.new (roles : List Role) (numPlayers : Nat) : Multiverse :=
  (roles.foldl placeStep [List.replicate numPlayers Role.Villager]).map Universe.ofRoles

/-- Insertion into the collapsed-roles map of Multiverse::collapse_roles;
models HashMap::insert (overwrite on key collision). -/
def insertRole (l : List (Nat × Role)) (k : Nat) (v : Role) : List (Nat × Role) :=
  (k, v) :: l.filter (fun p => decide (p.1 ≠ k))

/-- The per-iteration recording step of Multiverse::collapse_roles: for every
player index below num_players that is dead in all universes, record the
sampled universe's role for them (overwriting any earlier record). -/
def recordDead (m : Multiverse) (w : Universe) (fixed : List (Nat × Role)) :
    List (Nat × Role) :=
  (List.range (numPlayers m)).foldl (fun f i =>
    if i ∈ aliveIndices m then f else insertRole f i (w.roles.getD i Role.Villager)) fixed

/-- The filter predicate of Multiverse::collapse_roles: a universe survives
iff it agrees with every recorded role. -/
def agreesWith (fixed : List (Nat × Role)) (u : Universe) : Bool :=
  fixed.all (fun p => decide (u.roles.getD p.1 Role.Villager = p.2))

/-- The loop of Multiverse::collapse_roles, with explicit fuel (the loop
terminates because the multiverse shrinks strictly between iterations, so
initial fuel length + 1 is always sufficient) and a sampling oracle indexed
by iteration.  When the multiverse is empty the Rust code panics
("paradox created while collapsing roles"); we return the multiverse
unchanged there, which the collapse theorems avoid via their hypotheses. -/
def collapseGo (fuel : Nat) (pick : Nat → Nat) (k : Nat) (fixed : List (Nat × Role))
    (m : Multiverse) : Multiverse :=
  match fuel with
  | 0 => m
  | fuel + 1 =>
    match rand (pick k) m with
    | none => m
    | some w =>
      let fixed2 := recordDead m w fixed
      let m2 := m.filter (agreesWith fixed2)
      if m2.length = m.length then m2
      else collapseGo fuel pick (k + 1) fixed2 m2

/-- Multiverse::collapse_roles from src/game/types.rs. -/
def collapseRoles (pick : Nat → Nat) (m : Multiverse) : Multiverse :=
  collapseGo (m.length + 1) pick 0 [] m

/-- Multiverse::faction from src/game/types.rs: the faction of the player if
it is identical in every universe (the Rust code indexes universe 0 and
compares the rest).  None for the empty multiverse, where Rust panics. -/
def Multiverse.faction (m : Multiverse) (playerIdx : Nat) : Option Faction :=
  match m with
  | [] => none
  | u :: rest =>
    let f := u.factions.getD playerIdx Faction.Village
    if rest.all (fun v => decide (v.factions.getD playerIdx Faction.Village = f)) then some f
    else none

/-- Multiverse::role from src/game/types.rs, analogous to faction. -/
def Multiverse.role (m : Multiverse) (playerIdx : Nat) : Option Role :=
  match m with
  | [] => none
  | u :: rest =>
    let r := u.roles.getD playerIdx Role.Villager
    if rest.all (fun v => decide (v.roles.getD playerIdx Role.Villager = r)) then some r
    else none

/-- Multiverse::game_over from src/game/types.rs: the game has ended in all
universes. -/
def gameOverM (m : Multiverse) (night : Bool) : Bool :=
  m.all (fun u => u.gameOver night)

/-- Multiverse::role_alive from src/game/types.rs. -/
def roleAlive (m : Multiverse) (role : Role) : Bool :=
  m.any (fun u =>
    (List.range u.roles.length).any (fun playerIdx =>
      decide (u.roles.getD playerIdx Role.Villager = role) &&
      (u.alive.getD playerIdx false || decide ((Multiverse.role m playerIdx) = none))))

/-- The village_ratio computation of Multiverse::probability_table
(src/game/types.rs), with the f64 division modelled as exact rational
division. -/
def villageRatio (m : Multiverse) (playerIdx : Nat) : ℚ :=
  ((m.filter (fun u =>
    decide (u.factions.getD playerIdx Faction.Village = Faction.Village))).length : ℚ) /
  (m.length : ℚ)

/-- The werewolves_ratio computation of Multiverse::probability_table. -/
def werewolvesRatio (m : Multiverse) (playerIdx : Nat) : ℚ :=
  ((m.filter (fun u =>
    decide (u.factions.getD playerIdx Faction.Village = Faction.Werewolves))).length : ℚ) /
  (m.length : ℚ)

/-- The dead_ratio computation of Multiverse::probability_table. -/
def deadRatio (m : Multiverse) (playerIdx : Nat) : ℚ :=
  ((m.filter (fun u => !(u.alive.getD playerIdx false))).length : ℚ) / (m.length : ℚ)

/-- The per-player entry of Multiverse::probability_table
(src/game/types.rs).  None models the panic "player is dead but does not
have a determined faction". -/
def probEntry (m : Multiverse) (playerIdx : Nat) : Option (Except Faction (ℚ × ℚ × ℚ)) :=
  if playerIdx ∈ aliveIndices m then
    some (Except.ok (villageRatio m playerIdx, werewolvesRatio m playerIdx, deadRatio m playerIdx))
  else
    match Multiverse.faction m playerIdx with
    | some f => some (Except.error f)
    | none => none

/-- The collect step of Multiverse::probability_table: one entry per player
index, failing as soon as one entry panics. -/
def collectEntries (m : Multiverse) : List Nat → Option (List (Except Faction (ℚ × ℚ × ℚ)))
  | [] => some []
  | i :: rest =>
    match probEntry m i, collectEntries m rest with
    | some e, some l => some (e :: l)
    | _, _ => none

/-- Multiverse::probability_table from src/game/types.rs. -/
def probabilityTable (m : Multiverse) : Option (List (Except Faction (ℚ × ℚ × ℚ))) :=
  collectEntries m (List.range (numPlayers m))

/-- Contains the information sent to a player as the result of a night
action; enum NightActionResult in src/game/types.rs. -/
inductive NightActionResult where
  | Investigation : Faction → NightActionResult
deriving DecidableEq, Repr

/-- Modelled from the spec: the enum NightAction of this repository is used
by src/game/state.rs (variants Heal, Investigate, Kill, each carrying a
source and a target player) but its declaration is not among the sources
under src; the spec (sections 4.4 and 6) lists exactly these three
night-action kinds, each with a source and a target. -/
inductive NightAction (P : Type) where
  | Heal : P → P → NightAction P
  | Investigate : P → P → NightAction P
  | Kill : P → P → NightAction P
deriving DecidableEq, Repr

/-- Position of a player in the secret-id list; models
secret_ids.iter().position(.. == ..) from src/game/state.rs. -/
def posOf [DecidableEq P] (x : P) (l : List P) : Option Nat :=
  l.findIdx? (fun p => decide (x = p))

/-- struct Night from src/game/state.rs. -/
structure NightSt (P : Type) where
  secretIds : List P
  lastHeals : List (Option Nat)
  multiverse : Multiverse
deriving Repr

/-- struct Day from src/game/state.rs. -/
structure DaySt (P : Type) where
  secretIds : List P
  multiverse : Multiverse
  nightActionResults : List (Option NightActionResult)
  lastHeals : List (Option Nat)
deriving Repr

/-- struct Complete from src/game/state.rs (the winner set, modelled as the
list the Rust code collects into its HashSet). -/
structure CompleteSt (P : Type) where
  winners : List P
deriving DecidableEq, Repr

/-- The running-game part of enum State from src/game/state.rs (the Signups
variant takes no part in the claims below). -/
inductive StateX (P : Type) where
  | Night : NightSt P → StateX P
  | Day : DaySt P → StateX P
  | Complete : CompleteSt P → StateX P

/-- Night::alive from src/game/state.rs, as the membership test actually
used on it: the alive set contains x iff some index alive in at least one
universe maps to x through the secret-id list. -/
def NightSt.aliveContains [DecidableEq P] (n : NightSt P) (x : P) : Bool :=
  (aliveIndices n.multiverse).any (fun idx => decide (n.secretIds.get? idx = some x))

/-- Complete::new from src/game/state.rs: sample one universe; winners are
the players whose faction meets its win condition there; the empty
multiverse yields no winners. -/
def completeNew (pick : Nat) (secretIds : List P) (m : Multiverse) : CompleteSt P :=
  match rand pick m with
  | none => { winners := [] }
  | some u =>
    { winners :=
        ((List.range secretIds.length).filterMap (fun playerIdx =>
          if (u.factions.getD playerIdx Faction.Village).wincon u then
            secretIds.get? playerIdx
          else none)) }

/-- Day::can_lynch from src/game/state.rs. -/
def DaySt.canLynch [DecidableEq P] (d : DaySt P) (target : P) : Bool :=
  match posOf target d.secretIds with
  | some lynchId => decide (lynchId ∈ aliveIndices d.multiverse)
  | none => false

/-- Day::lynch from src/game/state.rs.  None models the panic
"lynched player not in game"; the oracles drive role collapse and the
final-universe sample of Complete::new. -/
def DaySt.lynch [DecidableEq P] (d : DaySt P) (target : P) (cPick : Nat → Nat)
    (wPick : Nat) : Option (StateX P) :=
  match posOf target d.secretIds with
  | none => none
  | some lynchId =>
    let m1 := (d.multiverse.filter (fun u => u.alive.getD lynchId false)).map
      (fun u => u.kill lynchId false)
    let m2 := collapseRoles cPick m1
    if gameOverM m2 false then
      some (StateX.Complete (completeNew wPick d.secretIds m2))
    else
      some (StateX.Night
        { secretIds := d.secretIds
          lastHeals := d.lastHeals
          multiverse := m2 })

/-- Day::no_lynch from src/game/state.rs. -/
def DaySt.noLynch [DecidableEq P] (d : DaySt P) (wPick : Nat) : StateX P :=
  if gameOverM d.multiverse false then
    StateX.Complete (completeNew wPick d.secretIds d.multiverse)
  else
    StateX.Night
      { secretIds := d.secretIds
        lastHeals := d.lastHeals
        multiverse := d.multiverse }

/-- The candidate universes for an investigation by source index s: the
Rust code filters on the source being Detective and alive
(src/game/state.rs, resolve_nar and resolve_tar). -/
def detectiveCandidates (m : Multiverse) (s : Nat) : Multiverse :=
  (m.filter (fun u => decide (u.roles.getD s Role.Villager = Role.Detective))).filter
    (fun u => u.alive.getD s false)

/-- The per-universe condition of the Heal arm of resolve_nar
(src/game/state.rs): the source is a Healer and alive and the target is
alive in that universe. -/
def canHeal (u : Universe) (s t : Nat) : Bool :=
  decide (u.roles.getD s Role.Villager = Role.Healer) &&
  u.alive.getD s false && u.alive.getD t false

/-- The per-universe condition of the Kill arm of resolve_nar
(src/game/state.rs): the source is a Werewolf whose rank is not above the
rank of any living werewolf, and source and target are alive. -/
def canKill (u : Universe) (s t : Nat) : Bool :=
  (match u.roles.getD s Role.Villager with
   | Role.Werewolf werewolfRank =>
     (List.range u.roles.length).all (fun i =>
       match u.roles.getD i Role.Villager with
       | Role.Werewolf cmpRank => decide (werewolfRank ≤ cmpRank) || !(u.alive.getD i false)
       | _ => true)
   | _ => false) &&
  u.alive.getD s false && u.alive.getD t false

/-- The Heal arm of resolve_nar applied to one universe. -/
def applyHealWorld (s t : Nat) (u : Universe) : Universe :=
  if canHeal u s t then u.heal t else u

/-- The Kill arm of resolve_nar applied to one universe. -/
def applyKillWorld (s t : Nat) (u : Universe) : Universe :=
  if canKill u s t then u.kill t true else u

/-- The Investigate arm of resolve_nar (src/game/state.rs): sample a
universe in which the source is a living Detective; if none exists skip;
otherwise record the sampled faction of the target for the source and keep
exactly the universes not refuted by it.  None models the
unimplemented-panic on a second result for the same player. -/
def applyInvestigate (pick : Nat) (s t : Nat) (m : Multiverse)
    (results : List (Option NightActionResult)) :
    Option (Multiverse × List (Option NightActionResult)) :=
  match rand pick (detectiveCandidates m s) with
  | none => some (m, results)
  | some w =>
    let investigatedFaction := w.factions.getD t Faction.Village
    match results.getD s none with
    | some _ => none
    | none =>
      some
        (m.filter (fun u =>
          !(decide (u.roles.getD s Role.Villager = Role.Detective) &&
            u.alive.getD s false &&
            decide (u.factions.getD t Faction.Village ≠ investigatedFaction))),
         results.set s (some (NightActionResult.Investigation investigatedFaction)))

/-- One step of the action-resolution loop of resolve_nar
(src/game/state.rs), threading the multiverse, the current-heals memo and
the night-action results. -/
def resolveActionStep (pick : Nat) (st : Multiverse × List (Option Nat) × List (Option NightActionResult))
    (a : NightAction Nat) :
    Option (Multiverse × List (Option Nat) × List (Option NightActionResult)) :=
  match a with
  | NightAction.Heal s t =>
    some (st.1.map (applyHealWorld s t), st.2.1.set s (some t), st.2.2)
  | NightAction.Investigate s t =>
    match applyInvestigate pick s t st.1 st.2.2 with
    | none => none
    | some (m2, results2) => some (m2, st.2.1, results2)
  | NightAction.Kill s t =>
    some (st.1.map (applyKillWorld s t), st.2.1, st.2.2)

/-- The action-resolution loop of resolve_nar over a sanitized action list,
with the sampling oracle indexed by the position of the action in the
list. -/
def resolveActions (invPick : Nat → Nat) (k : Nat)
    (acts : List (NightAction Nat))
    (st : Multiverse × List (Option Nat) × List (Option NightActionResult)) :
    Option (Multiverse × List (Option Nat) × List (Option NightActionResult)) :=
  match acts with
  | [] => some st
  | a :: rest =>
    match resolveActionStep (invPick k) st a with
    | none => none
    | some st2 => resolveActions invPick (k + 1) rest st2

/-- The dawn step of resolve_nar: set every player on a universe's kill
list dead in that universe. -/
def dawnWorld (u : Universe) : Universe :=
  { u with alive := u.kills.foldl (fun al playerId => al.set playerId false) u.alive }

/-- The reset step at the top of resolve_nar: clear the heal and kill lists
of every universe. -/
def resetWorld (u : Universe) : Universe :=
  { u with heals := [], kills := [] }

/-- The duplicate-source test of Night::sanitized_night_actions for heals:
some already-kept heal has this source index. -/
def hasHealFrom (result : List (NightAction Nat)) (srcIdx : Nat) : Bool :=
  result.any (fun b => match b with
    | NightAction.Heal iterSrc _ => decide (iterSrc = srcIdx)
    | _ => false)

/-- The duplicate-source test for investigations. -/
def hasInvFrom (result : List (NightAction Nat)) (srcIdx : Nat) : Bool :=
  result.any (fun b => match b with
    | NightAction.Investigate iterSrc _ => decide (iterSrc = srcIdx)
    | _ => false)

/-- The duplicate-source test for kills (also used when completing missing
compulsory kills). -/
def hasKillFrom (result : List (NightAction Nat)) (srcIdx : Nat) : Bool :=
  result.any (fun b => match b with
    | NightAction.Kill iterSrc _ => decide (iterSrc = srcIdx)
    | _ => false)

/-- One step of the illegal-action filter of
Night::sanitized_night_actions (src/game/state.rs): the submitted action is
appended to the kept list exactly when the Rust loop pushes it. -/
def sanitizeStep [DecidableEq P] (n : NightSt P) (result : List (NightAction Nat))
    (a : NightAction P) : List (NightAction Nat) :=
  match a with
  | NightAction.Heal src tgt =>
    match posOf src n.secretIds, posOf tgt n.secretIds with
    | some srcIdx, some tgtIdx =>
      if !(n.aliveContains src) || !(n.aliveContains tgt) then result
      else if hasHealFrom result srcIdx then result
      else if n.lastHeals.getD srcIdx none ≠ some tgtIdx then
        result ++ [NightAction.Heal srcIdx tgtIdx]
      else result
    | _, _ => result
  | NightAction.Investigate src tgt =>
    match posOf src n.secretIds, posOf tgt n.secretIds with
    | some srcIdx, some tgtIdx =>
      if !(n.aliveContains src) then result
      else if hasInvFrom result srcIdx then result
      else result ++ [NightAction.Investigate srcIdx tgtIdx]
    | _, _ => result
  | NightAction.Kill src tgt =>
    match posOf src n.secretIds, posOf tgt n.secretIds with
    | some srcIdx, some tgtIdx =>
      if !(n.aliveContains src) || !(n.aliveContains tgt) then result
      else if hasKillFrom result srcIdx then result
      else result ++ [NightAction.Kill srcIdx tgtIdx]
    | _, _ => result

/-- The body of the compulsory-kill loop of Night::sanitized_night_actions:
a player index alive in some universe without a kept kill gets a kill
against an oracle-chosen member of the alive set. -/
def compulsoryStep (n : NightSt P) (pick : Nat → Nat)
    (res : List (NightAction Nat)) (secretId : Nat) : List (NightAction Nat) :=
  if decide (secretId ∈ aliveIndices n.multiverse) && !(hasKillFrom res secretId) then
    match rand (pick secretId) (aliveIndices n.multiverse) with
    | some randomId => res ++ [NightAction.Kill secretId randomId]
    | none => res
  else res

/-- The compulsory-kill completion of Night::sanitized_night_actions. -/
def addCompulsoryKills (n : NightSt P) (pick : Nat → Nat)
    (base : List (NightAction Nat)) : List (NightAction Nat) :=
  (List.range n.secretIds.length).foldl (compulsoryStep n pick) base

/-- Night::sanitized_night_actions from src/game/state.rs. -/
def sanitizedNightActions [DecidableEq P] (n : NightSt P) (pick : Nat → Nat)
    (nightActions : List (NightAction P)) : List (NightAction Nat) :=
  addCompulsoryKills n pick (nightActions.foldl (sanitizeStep n) [])

/-- Night::resolve_nar from src/game/state.rs: reset, resolve the sanitized
actions in order, apply pending kills, collapse roles, then hand over to
Day or Complete.  None models the unimplemented-panic inside the
investigation arm. -/
def NightSt.resolveNar [DecidableEq P] (n : NightSt P) (killPick : Nat → Nat)
    (invPick : Nat → Nat) (cPick : Nat → Nat) (wPick : Nat)
    (nightActions : List (NightAction P)) : Option (StateX P) :=
  let m0 := n.multiverse.map resetWorld
  let acts := sanitizedNightActions { n with multiverse := m0 } killPick nightActions
  match resolveActions invPick 0 acts
      (m0, List.replicate n.secretIds.length none,
       List.replicate n.secretIds.length none) with
  | none => none
  | some (m1, currentHeals, results) =>
    let m2 := collapseRoles cPick (m1.map dawnWorld)
    if gameOverM m2 false then
      some (StateX.Complete (completeNew wPick n.secretIds m2))
    else
      some (StateX.Day
        { secretIds := n.secretIds
          multiverse := m2
          nightActionResults := results
          lastHeals := currentHeals })

/-- The role preprocessing of Signups::start (src/game/state.rs): drop
Villagers, renumber werewolves to consecutive ranks in submission order. -/
def preprocessRoles (roles : List Role) : List Role :=
  ((roles.filter (fun r => decide (r ≠ Role.Villager))).foldl
    (fun acc role =>
      match role with
      | Role.Werewolf _ => (acc.1 + 1, acc.2 ++ [Role.Werewolf acc.1])
      | _ => (acc.1, acc.2 ++ [role]))
    (0, [])).2

/-- The multiverse-transforming operations of a running game, for the
alive-monotonicity invariant: night resolution of an (already sanitized)
index-level action list, lynching a player index, the no-lynch day
transition, and role collapse, each with its sampling oracles.  numIds is
the secret-id count the night resolution sizes its memo vectors with. -/
inductive Op where
  | night : (numIds : Nat) → (acts : List (NightAction Nat)) →
      (invPick : Nat → Nat) → (cPick : Nat → Nat) → Op
  | lynchOp : (lynchId : Nat) → (cPick : Nat → Nat) → Op
  | noLynchOp : Op
  | collapseOp : (pick : Nat → Nat) → Op

/-- The effect of one operation on the multiverse, as performed by
resolve_nar, Day::lynch, Day::no_lynch and Multiverse::collapse_roles;
None models the panics of the underlying code. -/
def applyOp (op : Op) (m : Multiverse) : Option Multiverse :=
  match op with
  | Op.night numIds acts invPick cPick =>
    match resolveActions invPick 0 acts
        (m.map resetWorld, List.replicate numIds none, List.replicate numIds none) with
    | none => none
    | some st => some (collapseRoles cPick (st.1.map dawnWorld))
  | Op.lynchOp lynchId cPick =>
    some (collapseRoles cPick
      ((m.filter (fun u => u.alive.getD lynchId false)).map (fun u => u.kill lynchId false)))
  | Op.noLynchOp => some m
  | Op.collapseOp pick => some (collapseRoles pick m)

/-- A sequence of operations applied in order; None as soon as one panics. -/
def applyOps (ops : List Op) (m : Multiverse) : Option Multiverse :=
  match ops with
  | [] => some m
  | op :: rest =>
    match applyOp op m with
    | none => none
    | some m2 => applyOps rest m2

/-! ### Shared helper lemmas -/

/-- A filter that did not shrink the list kept it intact. -/
theorem filter_of_length_eq {p : α → Bool} {l : List α}
    (h : (l.filter p).length = l.length) : l.filter p = l :=
  (List.filter_sublist l).eq_of_length h

/-- A sampled element is a member of the sampled list. -/
theorem rand_mem {pick : Nat} {l : List α} {a : α} (h : rand pick l = some a) : a ∈ l :=
  List.get?_mem h

/-- Sampling fails exactly on the empty list. -/
theorem rand_eq_none_iff {pick : Nat} {l : List α} : rand pick l = none ↔ l = [] := by
  unfold rand
  constructor
  · intro h
    cases l with
    | nil => rfl
    | cons a t =>
      have hlt : pick % (a :: t).length < (a :: t).length :=
        Nat.mod_lt _ (by simp)
      rw [List.get?_eq_getElem?, List.getElem?_eq_getElem hlt] at h
      cases h
  · intro h
    subst h
    rfl

/-- On a nonempty list, sampling yields the element at the oracle position
modulo the length. -/
theorem rand_eq_some (pick : Nat) (l : List α) (h : l ≠ []) :
    ∃ hlt : pick % l.length < l.length, rand pick l = some (l.get ⟨pick % l.length, hlt⟩) := by
  have hlt : pick % l.length < l.length :=
    Nat.mod_lt _ (List.length_pos.mpr h)
  exact ⟨hlt, by simp [rand, List.get?_eq_getElem?, List.getElem?_eq_getElem hlt]⟩

/-- Bool.any over a zip, read off positionally. -/
theorem zip_any_iff {fs : List Faction} {al : List Bool} {f0 : Faction} :
    ((fs.zip al).any (fun p => decide (p.1 = f0) && p.2) = true) ↔
    ∃ i, ∃ h1 : i < fs.length, ∃ h2 : i < al.length, fs[i] = f0 ∧ al[i] = true := by
  rw [List.any_eq_true]
  constructor
  · rintro ⟨x, hx, hpx⟩
    rcases List.mem_iff_getElem.mp hx with ⟨i, hi, hix⟩
    have hi2 := hi
    rw [List.length_zip] at hi2
    have h1 : i < fs.length := lt_of_lt_of_le hi2 (min_le_left _ _)
    have h2 : i < al.length := lt_of_lt_of_le hi2 (min_le_right _ _)
    refine ⟨i, h1, h2, ?_⟩
    have : (fs.zip al)[i] = (fs[i], al[i]) := List.getElem_zip
    rw [this] at hix
    subst hix
    simpa using hpx
  · rintro ⟨i, h1, h2, hf, ha⟩
    have hi : i < (fs.zip al).length := by
      rw [List.length_zip]
      exact lt_min h1 h2
    refine ⟨(fs.zip al)[i], List.getElem_mem hi, ?_⟩
    have : (fs.zip al)[i] = (fs[i], al[i]) := List.getElem_zip
    rw [this]
    simp [hf, ha]

/-! ### Claim C4: faction win conditions -/

/-- C4: Werewolves win exactly when no Village-faction player is alive (in
particular in an all-dead world, whatever the factions), and Village wins
exactly when some Village-faction player is alive and no Werewolves-faction
player is; an all-dead world is a Werewolves win and not a Village win. -/
theorem claim_C4_wincon (u : Universe) (hlen : u.factions.length = u.alive.length) :
    (Faction.wincon Faction.Werewolves u = true ↔
      ∀ i < u.alive.length, ¬(u.factions.getD i Faction.Werewolves = Faction.Village ∧
        u.alive.getD i false = true)) ∧
    (Faction.wincon Faction.Village u = true ↔
      ((∃ i < u.alive.length, u.factions.getD i Faction.Werewolves = Faction.Village ∧
        u.alive.getD i false = true) ∧
       ¬(∃ i < u.alive.length, u.factions.getD i Faction.Village = Faction.Werewolves ∧
        u.alive.getD i false = true))) ∧
    ((∀ i < u.alive.length, u.alive.getD i false = false) →
      Faction.wincon Faction.Werewolves u = true ∧ Faction.wincon Faction.Village u = false) := by
  have hVany : ((u.factions.zip u.alive).any
      (fun p => decide (p.1 = Faction.Village) && p.2) = true) ↔
      ∃ i < u.alive.length, u.factions.getD i Faction.Werewolves = Faction.Village ∧
        u.alive.getD i false = true := by
    rw [zip_any_iff]
    constructor
    · rintro ⟨i, h1, h2, hf, ha⟩
      exact ⟨i, h2, by rw [List.getD_eq_getElem _ _ h1]; exact hf,
        by rw [List.getD_eq_getElem _ _ h2]; exact ha⟩
    · rintro ⟨i, h2, hf, ha⟩
      have h1 : i < u.factions.length := by omega
      exact ⟨i, h1, h2, by rw [List.getD_eq_getElem _ _ h1] at hf; exact hf,
        by rw [List.getD_eq_getElem _ _ h2] at ha; exact ha⟩
  have hWany : ((u.factions.zip u.alive).any
      (fun p => decide (p.1 = Faction.Werewolves) && p.2) = true) ↔
      ∃ i < u.alive.length, u.factions.getD i Faction.Village = Faction.Werewolves ∧
        u.alive.getD i false = true := by
    rw [zip_any_iff]
    constructor
    · rintro ⟨i, h1, h2, hf, ha⟩
      exact ⟨i, h2, by rw [List.getD_eq_getElem _ _ h1]; exact hf,
        by rw [List.getD_eq_getElem _ _ h2]; exact ha⟩
    · rintro ⟨i, h2, hf, ha⟩
      have h1 : i < u.factions.length := by omega
      exact ⟨i, h1, h2, by rw [List.getD_eq_getElem _ _ h1] at hf; exact hf,
        by rw [List.getD_eq_getElem _ _ h2] at ha; exact ha⟩
  refine ⟨?_, ?_, ?_⟩
  · unfold Faction.wincon
    rw [Bool.not_eq_eq_eq_not, Bool.not_true, ← Bool.not_eq_true, hVany]
    constructor
    · intro h i hi hcon
      exact h ⟨i, hi, hcon⟩
    · rintro h ⟨i, hi, hcon⟩
      exact h i hi hcon
  · unfold Faction.wincon
    simp only [Bool.and_eq_true, Bool.not_eq_eq_eq_not, Bool.not_true, ← Bool.not_eq_true]
    rw [hVany, hWany]
  · intro hdead
    have hVnone : ¬∃ i < u.alive.length,
        u.factions.getD i Faction.Werewolves = Faction.Village ∧
        u.alive.getD i false = true := by
      rintro ⟨i, hi, _, ha⟩
      rw [hdead i hi] at ha
      cases ha
    constructor
    · unfold Faction.wincon
      rw [Bool.not_eq_eq_eq_not, Bool.not_true, ← Bool.not_eq_true, hVany]
      exact hVnone
    · unfold Faction.wincon
      simp only [Bool.and_eq_true, ← Bool.not_eq_true]
      intro hcon
      exact hVnone (hVany.mp (by simpa using hcon.1))

/-- Witness for C4 at a concrete all-dead three-player world. -/
theorem claim_C4_wincon_witness :
    let u : Universe :=
      { alive := [false, false, false]
        roles := [Role.Werewolf 0, Role.Villager, Role.Detective]
        factions := [Faction.Werewolves, Faction.Village, Faction.Village]
        heals := []
        kills := [] }
    Faction.wincon Faction.Werewolves u = true ∧ Faction.wincon Faction.Village u = false :=
  (claim_C4_wincon _ (by decide)).2.2 (by decide)

/-! ### Claim C3: the werewolf-kill action per world -/

/-- The kill condition in the words of the claim: the source's role is
Werewolf with rank minimal among the ranks of all alive werewolves, the
source is alive, the target is alive, and the target is not on the heal
list of the world. -/
def killLegit (u : Universe) (s t : Nat) : Prop :=
  (∃ w, u.roles.getD s Role.Villager = Role.Werewolf w ∧
    ∀ i < u.roles.length, ∀ r, u.roles.getD i Role.Villager = Role.Werewolf r →
      u.alive.getD i false = true → w ≤ r) ∧
  u.alive.getD s false = true ∧ u.alive.getD t false = true ∧ t ∉ u.heals

/-- The code's per-world kill test agrees with the claim's phrasing, apart
from the heal exemption which the code applies inside Universe::kill. -/
theorem canKill_iff (u : Universe) (s t : Nat) :
    canKill u s t = true ↔
      ((∃ w, u.roles.getD s Role.Villager = Role.Werewolf w ∧
        ∀ i < u.roles.length, ∀ r, u.roles.getD i Role.Villager = Role.Werewolf r →
          u.alive.getD i false = true → w ≤ r) ∧
       u.alive.getD s false = true ∧ u.alive.getD t false = true) := by
  unfold canKill
  simp only [Bool.and_eq_true]
  cases hr : u.roles.getD s Role.Villager with
  | Werewolf w =>
    simp only [List.all_eq_true, List.mem_range]
    constructor
    · rintro ⟨⟨hall, hs⟩, ht⟩
      refine ⟨⟨w, rfl, ?_⟩, hs, ht⟩
      intro i hi r hir hialive
      have := hall i hi
      rw [hir] at this
      simp only [Bool.or_eq_true, Bool.not_eq_eq_eq_not, Bool.not_true, decide_eq_true_eq] at this
      rcases this with h | h
      · exact h
      · rw [hialive] at h
        simp at h
    · rintro ⟨⟨w2, hw2, hmin⟩, hs, ht⟩
      cases hw2
      refine ⟨⟨?_, hs⟩, ht⟩
      intro i hi
      cases hir : u.roles.getD i Role.Villager with
      | Werewolf r =>
        simp only [Bool.or_eq_true, Bool.not_eq_eq_eq_not, Bool.not_true, decide_eq_true_eq]
        by_cases hialive : u.alive.getD i false = true
        · exact Or.inl (hmin i hi r hir hialive)
        · exact Or.inr (by revert hialive; cases u.alive.getD i false <;> simp)
      | Detective => rfl
      | Healer => rfl
      | Villager => rfl
  | Detective =>
    constructor
    · rintro ⟨⟨h, -⟩, -⟩
      exact Bool.noConfusion h
    · rintro ⟨⟨w2, hw2, -⟩, -, -⟩
      exact Role.noConfusion hw2
  | Healer =>
    constructor
    · rintro ⟨⟨h, -⟩, -⟩
      exact Bool.noConfusion h
    · rintro ⟨⟨w2, hw2, -⟩, -, -⟩
      exact Role.noConfusion hw2
  | Villager =>
    constructor
    · rintro ⟨⟨h, -⟩, -⟩
      exact Bool.noConfusion h
    · rintro ⟨⟨w2, hw2, -⟩, -, -⟩
      exact Role.noConfusion hw2

/-- C3: a submitted werewolf kill appends the target to a world's
pending-kill list exactly when the claim's condition holds in that world,
and leaves every other world untouched. -/
theorem claim_C3_kill_action (u : Universe) (s t : Nat) :
    (applyKillWorld s t u = { u with kills := u.kills ++ [t] } ↔ killLegit u s t) ∧
    (¬ killLegit u s t → applyKillWorld s t u = u) := by
  have happ : ({ u with kills := u.kills ++ [t] } : Universe) ≠ u := by
    intro h
    have : (u.kills ++ [t]).length = u.kills.length := congrArg (fun v => v.kills.length) h
    simp at this
  unfold applyKillWorld Universe.kill killLegit
  by_cases hck : canKill u s t = true
  · rw [if_pos hck, if_pos rfl]
    by_cases hh : t ∈ u.heals
    · rw [if_pos hh]
      constructor
      · constructor
        · intro h
          exact absurd h.symm happ
        · rintro ⟨-, -, -, habs⟩
          exact absurd hh habs
      · intro _
        rfl
    · rw [if_neg hh]
      have hlegit : killLegit u s t := by
        rcases (canKill_iff u s t).mp hck with ⟨hex, hs, ht⟩
        exact ⟨hex, hs, ht, hh⟩
      unfold killLegit at hlegit
      exact ⟨iff_of_true rfl hlegit, fun hn => absurd hlegit hn⟩
  · rw [if_neg hck]
    constructor
    · constructor
      · intro h
        exact absurd h.symm happ
      · rintro ⟨hex, hs, ht, -⟩
        exact absurd ((canKill_iff u s t).mpr ⟨hex, hs, ht⟩) hck
    · intro _
      rfl

/-- Witness for C3 at a concrete world where the kill goes through. -/
theorem claim_C3_kill_action_witness :
    let u : Universe :=
      { alive := [true, true, true]
        roles := [Role.Werewolf 0, Role.Villager, Role.Detective]
        factions := [Faction.Werewolves, Faction.Village, Faction.Village]
        heals := []
        kills := [] }
    applyKillWorld 0 1 u = { u with kills := [1] } := by
  intro u
  exact (claim_C3_kill_action u 0 1).1.mpr
    ⟨⟨0, rfl, fun i hi r hir halive => Nat.zero_le r⟩, rfl, rfl, by decide⟩

/-! ### Claim C1: investigation resolution -/

/-- Reading the negated three-fold conjunction used by the investigation
and lynch filters back as a proposition. -/
theorem notAnd3_eq_true {b : Bool} {A C : Prop} [Decidable A] [Decidable C] :
    ((!(decide A && b && decide C)) = true) ↔ ¬(A ∧ b = true ∧ C) := by
  cases b <;> by_cases hA : A <;> by_cases hC : C <;> simp [hA, hC]

/-- C1: if no world has the source as a living Detective, an investigation
records nothing and removes nothing; otherwise the revealed faction is the
target's faction in a world drawn from exactly that candidate set, the
result is recorded for the source, and the surviving multiverse consists of
exactly the prior worlds not refuted by the revealed faction. -/
theorem claim_C1_investigation (m : Multiverse) (results : List (Option NightActionResult))
    (s t : Nat) (pick : Nat) :
    (detectiveCandidates m s = [] →
       applyInvestigate pick s t m results = some (m, results)) ∧
    (detectiveCandidates m s ≠ [] → results.getD s none = none →
       ∃ w ∈ detectiveCandidates m s, ∃ m2,
         applyInvestigate pick s t m results =
           some (m2, results.set s (some (NightActionResult.Investigation
             (w.factions.getD t Faction.Village)))) ∧
         ∀ u, u ∈ m2 ↔ u ∈ m ∧
           ¬(u.roles.getD s Role.Villager = Role.Detective ∧
             u.alive.getD s false = true ∧
             u.factions.getD t Faction.Village ≠ w.factions.getD t Faction.Village)) := by
  constructor
  · intro hempty
    unfold applyInvestigate
    rw [hempty]
    rfl
  · intro hne hres
    rcases rand_eq_some pick (detectiveCandidates m s) hne with ⟨hlt, heq⟩
    set w := (detectiveCandidates m s).get ⟨pick % (detectiveCandidates m s).length, hlt⟩ with hw
    refine ⟨w, List.get_mem _ _ hlt, ?_⟩
    refine ⟨m.filter (fun u =>
      !(decide (u.roles.getD s Role.Villager = Role.Detective) &&
        u.alive.getD s false &&
        decide (u.factions.getD t Faction.Village ≠ w.factions.getD t Faction.Village))), ?_, ?_⟩
    · unfold applyInvestigate
      rw [heq, hres]
    · intro u
      rw [List.mem_filter]
      constructor
      · rintro ⟨hu, hb⟩
        exact ⟨hu, notAnd3_eq_true.mp hb⟩
      · rintro ⟨hu, hnot⟩
        exact ⟨hu, notAnd3_eq_true.mpr hnot⟩

/-- Witness for C1: a two-world multiverse in the shape of the spec's
investigation-narrowing test, plus a multiverse without a living detective
for the skip case. -/
theorem claim_C1_investigation_witness :
    let uA : Universe :=
      { alive := [true, true]
        roles := [Role.Detective, Role.Werewolf 0]
        factions := [Faction.Village, Faction.Werewolves]
        heals := []
        kills := [] }
    let uB : Universe :=
      { alive := [true, true]
        roles := [Role.Villager, Role.Detective]
        factions := [Faction.Village, Faction.Village]
        heals := []
        kills := [] }
    (applyInvestigate 0 0 1 [uB] [none, none] = some ([uB], [none, none])) ∧
    (∃ w ∈ detectiveCandidates [uA, uB] 0, ∃ m2,
       applyInvestigate 0 0 1 [uA, uB] [none, none] =
         some (m2, [none, none].set 0 (some (NightActionResult.Investigation
           (w.factions.getD 1 Faction.Village)))) ∧
       ∀ u, u ∈ m2 ↔ u ∈ [uA, uB] ∧
         ¬(u.roles.getD 0 Role.Villager = Role.Detective ∧
           u.alive.getD 0 false = true ∧
           u.factions.getD 1 Faction.Village ≠ w.factions.getD 1 Faction.Village)) := by
  intro uA uB
  constructor
  · exact (claim_C1_investigation [uB] [none, none] 0 1 0).1 (by decide)
  · exact (claim_C1_investigation [uA, uB] [none, none] 0 1 0).2 (by decide) (by decide)

/-! ### Claim C10: completing the game is total -/

/-- C10: constructing the Complete state on an empty multiverse yields the
empty winner set; on a nonempty multiverse one world is sampled from it and
the winners are exactly the players whose faction wins in that world. -/
theorem claim_C10_complete {P : Type} (pick : Nat) (secretIds : List P) (m : Multiverse) :
    (m = [] → (completeNew pick secretIds m).winners = ([] : List P)) ∧
    (m ≠ [] → ∃ u ∈ m, rand pick m = some u ∧
       ∀ x, x ∈ (completeNew pick secretIds m).winners ↔
         ∃ playerIdx < secretIds.length, secretIds.get? playerIdx = some x ∧
           (u.factions.getD playerIdx Faction.Village).wincon u = true) := by
  constructor
  · intro h
    subst h
    rfl
  · intro hne
    rcases rand_eq_some pick m hne with ⟨hlt, heq⟩
    refine ⟨m.get ⟨pick % m.length, hlt⟩, List.get_mem _ _ hlt, heq, ?_⟩
    intro x
    unfold completeNew
    rw [heq]
    simp only [List.mem_filterMap, List.mem_range]
    constructor
    · rintro ⟨i, hi, hsome⟩
      by_cases hwc : ((m.get ⟨pick % m.length, hlt⟩).factions.getD i
          Faction.Village).wincon (m.get ⟨pick % m.length, hlt⟩) = true
      · rw [if_pos hwc] at hsome
        exact ⟨i, hi, hsome, hwc⟩
      · rw [if_neg hwc] at hsome
        cases hsome
    · rintro ⟨i, hi, hget, hwc⟩
      exact ⟨i, hi, by rw [if_pos hwc]; exact hget⟩

/-- Witness for C10: the empty multiverse yields no winners, and a one-world
all-dead multiverse samples that world and wins for the werewolf. -/
theorem claim_C10_complete_witness :
    let u0 : Universe :=
      { alive := [false, false, false]
        roles := [Role.Werewolf 0, Role.Villager, Role.Detective]
        factions := [Faction.Werewolves, Faction.Village, Faction.Village]
        heals := []
        kills := [] }
    ((completeNew 0 [10, 11, 12] ([] : Multiverse)).winners = ([] : List Nat)) ∧
    (∃ u ∈ [u0], rand 0 [u0] = some u ∧
       ∀ x, x ∈ (completeNew 0 [10, 11, 12] [u0]).winners ↔
         ∃ playerIdx < ([10, 11, 12] : List Nat).length,
           ([10, 11, 12] : List Nat).get? playerIdx = some x ∧
           (u.factions.getD playerIdx Faction.Village).wincon u = true) := by
  intro u0
  exact ⟨(claim_C10_complete 0 [10, 11, 12] []).1 rfl,
    (claim_C10_complete 0 [10, 11, 12] [u0]).2 (by decide)⟩

/-! ### Claim C9: the probability table -/

/-- Splitting a list by a Bool predicate preserves the total length. -/
theorem filter_length_partition (p : α → Bool) (l : List α) :
    (l.filter p).length + (l.filter (fun a => !(p a))).length = l.length := by
  induction l with
  | nil => rfl
  | cons a t ih =>
    cases hpa : p a <;> simp only [List.filter_cons, hpa, Bool.not_true, Bool.not_false,
      cond_true, cond_false, if_pos, if_neg, List.length_cons] <;> simp <;> omega

/-- Counterexample to C9 as stated: a nonempty multiverse in which player 0
is dead in every world but the worlds disagree on player 0's faction; here
probability_table does not return an entry for the player (the Rust code
panics) rather than returning an unambiguous faction. -/
theorem claim_C9_probability_counterexample :
    let uW : Universe :=
      { alive := [false], roles := [Role.Werewolf 0], factions := [Faction.Werewolves],
        heals := [], kills := [] }
    let uV : Universe :=
      { alive := [false], roles := [Role.Villager], factions := [Faction.Village],
        heals := [], kills := [] }
    ([uW, uV] : Multiverse) ≠ [] ∧ (0 ∉ aliveIndices [uW, uV]) ∧
    probabilityTable [uW, uV] = none := by
  exact ⟨by decide, by decide, rfl⟩

/-- Entries succeed along a list of indices, so collecting them succeeds
with the mapped values. -/
theorem collectEntries_eq_some {m : Multiverse} {l : List Nat}
    (h : ∀ i ∈ l, (probEntry m i).isSome = true) :
    collectEntries m l =
      some (l.map (fun i => (probEntry m i).getD (Except.error Faction.Village))) := by
  induction l with
  | nil => rfl
  | cons i rest ih =>
    have hi := h i (by simp)
    rcases Option.isSome_iff_exists.mp hi with ⟨e, he⟩
    have hrest := ih (fun j hj => h j (by simp [hj]))
    unfold collectEntries
    rw [he, hrest]
    simp [he]

/-- C9, amended: on a nonempty multiverse in which every player dead in all
worlds has the same faction in all worlds, probability_table returns one
entry per player index; an entry for a player alive somewhere is the triple
of the Village fraction, the Werewolves fraction and the dead fraction of
the remaining worlds, and the two faction fractions sum to one; an entry
for a player dead everywhere is that player's faction, equal in every
world.  (As stated the claim fails: without the agreement proviso the code
panics, see the counterexample.) -/
theorem claim_C9_probability_table (m : Multiverse) (hne : m ≠ [])
    (hdet : ∀ i, i < numPlayers m → i ∉ aliveIndices m →
      (Multiverse.faction m i).isSome = true) :
    ∃ table, probabilityTable m = some table ∧ table.length = numPlayers m ∧
      ∀ i, i < numPlayers m →
        (i ∈ aliveIndices m →
          table.get? i = some (Except.ok (villageRatio m i, werewolvesRatio m i, deadRatio m i)) ∧
          villageRatio m i + werewolvesRatio m i = 1) ∧
        (i ∉ aliveIndices m →
          ∃ f, Multiverse.faction m i = some f ∧ table.get? i = some (Except.error f) ∧
            ∀ u ∈ m, u.factions.getD i Faction.Village = f) := by
  have hallsome : ∀ i ∈ List.range (numPlayers m), (probEntry m i).isSome = true := by
    intro i hi
    rw [List.mem_range] at hi
    unfold probEntry
    by_cases hmem : i ∈ aliveIndices m
    · rw [if_pos hmem]
      rfl
    · rw [if_neg hmem]
      rcases Option.isSome_iff_exists.mp (hdet i hi hmem) with ⟨f, hf⟩
      rw [hf]
      rfl
  have htable := collectEntries_eq_some hallsome
  refine ⟨_, htable, by simp, ?_⟩
  intro i hi
  have hget : ((List.range (numPlayers m)).map
      (fun j => (probEntry m j).getD (Except.error Faction.Village))).get? i =
      some ((probEntry m i).getD (Except.error Faction.Village)) := by
    rw [List.get?_map, List.get?_eq_getElem?, List.getElem?_range hi]
    rfl
  constructor
  · intro hmem
    have hentry : probEntry m i =
        some (Except.ok (villageRatio m i, werewolvesRatio m i, deadRatio m i)) := by
      unfold probEntry
      rw [if_pos hmem]
    constructor
    · rw [hget, hentry]
      rfl
    · have hpart : (m.filter (fun u =>
          decide (u.factions.getD i Faction.Village = Faction.Village))).length +
          (m.filter (fun u =>
          decide (u.factions.getD i Faction.Village = Faction.Werewolves))).length =
          m.length := by
        have hcongr : m.filter (fun u =>
            decide (u.factions.getD i Faction.Village = Faction.Werewolves)) =
            m.filter (fun u =>
            !(decide (u.factions.getD i Faction.Village = Faction.Village))) := by
          apply List.filter_congr
          intro u _
          cases hfac : u.factions.getD i Faction.Village <;> simp [hfac]
        rw [hcongr]
        exact filter_length_partition _ m
      unfold villageRatio werewolvesRatio
      rw [div_add_div_same]
      rw [← Nat.cast_add, hpart]
      apply div_self
      rw [Nat.cast_ne_zero]
      intro hzero
      exact hne (List.length_eq_zero.mp hzero)
  · intro hmem
    rcases Option.isSome_iff_exists.mp (hdet i hi hmem) with ⟨f, hf⟩
    refine ⟨f, hf, ?_, ?_⟩
    · have hentry : probEntry m i = some (Except.error f) := by
        unfold probEntry
        rw [if_neg hmem, hf]
      rw [hget, hentry]
      rfl
    · intro u hu
      cases m with
      | nil => cases hu
      | cons u0 rest =>
        simp only [Multiverse.faction] at hf
        split at hf
        · have hf0 : u0.factions.getD i Faction.Village = f := Option.some.inj hf
          rcases List.mem_cons.mp hu with h | h
          · rw [h]
            exact hf0
          · rename_i hall
            have := (List.all_eq_true.mp hall) u h
            rw [decide_eq_true_eq] at this
            rw [this, hf0]
        · cases hf

/-- Witness for C9 at a concrete three-player, two-world multiverse with an
unambiguously dead werewolf. -/
theorem claim_C9_probability_table_witness :
    let u1 : Universe :=
      { alive := [false, true, true]
        roles := [Role.Werewolf 0, Role.Detective, Role.Villager]
        factions := [Faction.Werewolves, Faction.Village, Faction.Village]
        heals := []
        kills := [] }
    let u2 : Universe :=
      { alive := [false, true, true]
        roles := [Role.Werewolf 0, Role.Villager, Role.Detective]
        factions := [Faction.Werewolves, Faction.Village, Faction.Village]
        heals := []
        kills := [] }
    ∃ table, probabilityTable [u1, u2] = some table ∧
      table.length = numPlayers [u1, u2] ∧
      ∀ i, i < numPlayers [u1, u2] →
        (i ∈ aliveIndices [u1, u2] →
          table.get? i = some (Except.ok
            (villageRatio [u1, u2] i, werewolvesRatio [u1, u2] i, deadRatio [u1, u2] i)) ∧
          villageRatio [u1, u2] i + werewolvesRatio [u1, u2] i = 1) ∧
        (i ∉ aliveIndices [u1, u2] →
          ∃ f, Multiverse.faction [u1, u2] i = some f ∧
            table.get? i = some (Except.error f) ∧
            ∀ u ∈ ([u1, u2] : Multiverse), u.factions.getD i Faction.Village = f) := by
  intro u1 u2
  exact claim_C9_probability_table [u1, u2] (by decide) (by decide)

/-! ### Claim C5: role collapse is idempotent -/

/-- The agreement property the collapse loop establishes: every player dead
in all remaining worlds has the same role in every remaining world. -/
def rolesAgreeOnDead (m : Multiverse) : Prop :=
  ∀ i, i < numPlayers m → i ∉ aliveIndices m →
    ∀ u ∈ m, ∀ v ∈ m, u.roles.getD i Role.Villager = v.roles.getD i Role.Villager

/-- Insertion with a different key keeps an entry. -/
theorem mem_insertRole_of_ne {l : List (Nat × Role)} {i k : Nat} {v v2 : Role}
    (h : (i, v) ∈ l) (hne : i ≠ k) : (i, v) ∈ insertRole l k v2 := by
  unfold insertRole
  refine List.mem_cons_of_mem _ ?_
  rw [List.mem_filter]
  exact ⟨h, by simpa using hne⟩

/-- The recording fold keeps an entry whose key it never touches. -/
theorem foldl_record_preserve {m : Multiverse} {w : Universe} {i : Nat} {v : Role} :
    ∀ (l : List Nat) (f0 : List (Nat × Role)), (i, v) ∈ f0 → (∀ j ∈ l, j ≠ i) →
      (i, v) ∈ l.foldl (fun f j =>
        if j ∈ aliveIndices m then f else insertRole f j (w.roles.getD j Role.Villager)) f0 := by
  intro l
  induction l with
  | nil =>
    intro f0 h _
    exact h
  | cons j rest ih =>
    intro f0 h hne
    simp only [List.foldl_cons]
    apply ih
    · by_cases hj : j ∈ aliveIndices m
      · rw [if_pos hj]
        exact h
      · rw [if_neg hj]
        exact mem_insertRole_of_ne h (fun hij => (hne j (by simp)) hij.symm)
    · intro j2 hj2
      exact hne j2 (by simp [hj2])

/-- After the recording fold, every index it was asked to record is
present with the sampled world's role. -/
theorem foldl_record_mem {m : Multiverse} {w : Universe} {i : Nat} :
    ∀ (l : List Nat) (f0 : List (Nat × Role)), l.Nodup → i ∈ l → i ∉ aliveIndices m →
      (i, w.roles.getD i Role.Villager) ∈ l.foldl (fun f j =>
        if j ∈ aliveIndices m then f else insertRole f j (w.roles.getD j Role.Villager)) f0 := by
  intro l
  induction l with
  | nil =>
    intro f0 _ h _
    cases h
  | cons j rest ih =>
    intro f0 hnodup hmem hdead
    simp only [List.foldl_cons]
    rcases List.mem_cons.mp hmem with h | h
    · subst h
      apply foldl_record_preserve
      · rw [if_neg hdead]
        unfold insertRole
        exact List.mem_cons_self _ _
      · intro j2 hj2
        intro hcon
        subst hcon
        exact (List.nodup_cons.mp hnodup).1 hj2
    · exact ih _ (List.nodup_cons.mp hnodup).2 h hdead

/-- Every entry of the recording fold either predates it or records the
sampled world's role of a dead-in-all index of the processed list. -/
theorem foldl_record_entries {m : Multiverse} {w : Universe} :
    ∀ (l : List Nat) (f0 : List (Nat × Role)) (p : Nat × Role),
      p ∈ l.foldl (fun f j =>
        if j ∈ aliveIndices m then f else insertRole f j (w.roles.getD j Role.Villager)) f0 →
      p ∈ f0 ∨ (p.1 ∈ l ∧ p.1 ∉ aliveIndices m ∧ p.2 = w.roles.getD p.1 Role.Villager) := by
  intro l
  induction l with
  | nil =>
    intro f0 p h
    exact Or.inl h
  | cons j rest ih =>
    intro f0 p h
    simp only [List.foldl_cons] at h
    rcases ih _ p h with h2 | h2
    · by_cases hj : j ∈ aliveIndices m
      · rw [if_pos hj] at h2
        exact Or.inl h2
      · rw [if_neg hj] at h2
        unfold insertRole at h2
        rcases List.mem_cons.mp h2 with h3 | h3
        · subst h3
          exact Or.inr ⟨by simp, hj, rfl⟩
        · exact Or.inl (List.mem_filter.mp h3).1
    · exact Or.inr ⟨List.mem_cons_of_mem _ h2.1, h2.2.1, h2.2.2⟩

/-- The collapse loop, run with enough fuel, ends in a multiverse that is
empty or satisfies the dead-role agreement property. -/
theorem collapseGo_post :
    ∀ (fuel : Nat) (pick : Nat → Nat) (k : Nat) (fixed : List (Nat × Role)) (m : Multiverse),
      m.length < fuel →
      collapseGo fuel pick k fixed m = [] ∨
        rolesAgreeOnDead (collapseGo fuel pick k fixed m) := by
  intro fuel
  induction fuel with
  | zero =>
    intro pick k fixed m hlt
    exact absurd hlt (by omega)
  | succ fuel ih =>
    intro pick k fixed m hlt
    unfold collapseGo
    cases hr : rand (pick k) m with
    | none =>
      exact Or.inl (rand_eq_none_iff.mp hr)
    | some w =>
      simp only
      by_cases hlen : (m.filter (agreesWith (recordDead m w fixed))).length = m.length
      · rw [if_pos hlen]
        have hself : m.filter (agreesWith (recordDead m w fixed)) = m :=
          filter_of_length_eq hlen
        rw [hself]
        refine Or.inr ?_
        intro i hi hdead u hu v hv
        have hentry : (i, w.roles.getD i Role.Villager) ∈ recordDead m w fixed := by
          unfold recordDead
          exact foldl_record_mem _ _ (List.nodup_range _) (List.mem_range.mpr hi) hdead
        have hall := List.filter_eq_self.mp hself
        have hagreeu := hall u hu
        have hagreev := hall v hv
        unfold agreesWith at hagreeu hagreev
        have hu2 := (List.all_eq_true.mp hagreeu) _ hentry
        have hv2 := (List.all_eq_true.mp hagreev) _ hentry
        rw [decide_eq_true_eq] at hu2 hv2
        rw [hu2, hv2]
      · rw [if_neg hlen]
        apply ih
        have hle := List.length_filter_le (agreesWith (recordDead m w fixed)) m
        omega

/-- Collapsing a multiverse that already satisfies the dead-role agreement
property returns it unchanged, whatever the oracle samples. -/
theorem collapse_of_agree (pick : Nat → Nat) (m : Multiverse)
    (hpost : rolesAgreeOnDead m) : collapseRoles pick m = m := by
  unfold collapseRoles
  cases hm : m with
  | nil => rfl
  | cons u0 rest =>
    rw [← hm]
    have hne : m ≠ [] := by
      rw [hm]
      exact List.cons_ne_nil _ _
    unfold collapseGo
    rcases rand_eq_some (pick 0) m hne with ⟨hlt, heq⟩
    rw [heq]
    simp only
    have hw : m.get ⟨pick 0 % m.length, hlt⟩ ∈ m := List.get_mem _ _ hlt
    have hself : m.filter (agreesWith (recordDead m (m.get ⟨pick 0 % m.length, hlt⟩) [])) = m := by
      apply List.filter_eq_self.mpr
      intro u hu
      unfold agreesWith
      apply List.all_eq_true.mpr
      intro p hp
      unfold recordDead at hp
      rcases foldl_record_entries _ _ p hp with h | h
      · cases h
      · rcases h with ⟨hpin, hpdead, hpval⟩
        rw [decide_eq_true_eq, hpval]
        exact hpost p.1 (List.mem_range.mp hpin) hpdead u hu _ hw
    rw [hself, if_pos rfl]

/-- C5: for a nonempty multiverse, collapsing twice in a row gives the same
multiverse as collapsing once, regardless of which worlds either call's
sampling oracle selects. -/
theorem claim_C5_collapse_idempotent (m : Multiverse) (hne : m ≠ [])
    (pick pick2 : Nat → Nat) :
    collapseRoles pick2 (collapseRoles pick m) = collapseRoles pick m := by
  have hpost := collapseGo_post (m.length + 1) pick 0 [] m (by omega)
  rcases hpost with h | h
  · unfold collapseRoles
    rw [h]
    rfl
  · exact collapse_of_agree pick2 _ h

/-- Witness for C5 at a concrete two-world multiverse with a dead player of
ambiguous role. -/
theorem claim_C5_collapse_idempotent_witness :
    let u1 : Universe :=
      { alive := [false, true]
        roles := [Role.Werewolf 0, Role.Villager]
        factions := [Faction.Werewolves, Faction.Village]
        heals := []
        kills := [] }
    let u2 : Universe :=
      { alive := [false, true]
        roles := [Role.Villager, Role.Werewolf 0]
        factions := [Faction.Village, Faction.Werewolves]
        heals := []
        kills := [] }
    collapseRoles (fun _ => 1) (collapseRoles (fun _ => 0) [u1, u2]) =
      collapseRoles (fun _ => 0) [u1, u2] := by
  intro u1 u2
  exact claim_C5_collapse_idempotent [u1, u2] (by decide) (fun _ => 0) (fun _ => 1)

/-! ### Claim C7: lynch and no-lynch -/

/-- A default-false read that returned true was in bounds. -/
theorem getD_true_lt {l : List Bool} {i : Nat} (h : l.getD i false = true) :
    i < l.length := by
  by_contra hge
  rw [List.getD_eq_getElem?_getD, List.getElem?_eq_none (by omega)] at h
  cases h

/-- Setting an in-bounds flag to false reads back false. -/
theorem getD_set_false {l : List Bool} {i : Nat} (h : i < l.length) :
    (l.set i false).getD i false = false := by
  rw [List.getD_eq_getElem?_getD, List.getElem?_set_self h]
  rfl

/-- C7: under the can_lynch precondition, lynching keeps exactly the worlds
where the target is alive, sets the target dead in each of them with no
heal exemption, collapses roles, and completes the game exactly when
game_over holds on the result; no_lynch keeps the multiverse intact and
only re-checks game_over. -/
theorem claim_C7_lynch {P : Type} [DecidableEq P] (d : DaySt P) (target : P)
    (cPick : Nat → Nat) (wPick : Nat) (h : d.canLynch target = true) :
    ∃ lynchId, posOf target d.secretIds = some lynchId ∧
      lynchId ∈ aliveIndices d.multiverse ∧
      ∃ m1,
        (∀ u2, u2 ∈ m1 ↔ ∃ u ∈ d.multiverse, u.alive.getD lynchId false = true ∧
          u2 = { u with alive := u.alive.set lynchId false }) ∧
        (∀ u2 ∈ m1, u2.alive.getD lynchId false = false) ∧
        d.lynch target cPick wPick = some
          (if gameOverM (collapseRoles cPick m1) false then
            StateX.Complete (completeNew wPick d.secretIds (collapseRoles cPick m1))
          else
            StateX.Night
              { secretIds := d.secretIds
                lastHeals := d.lastHeals
                multiverse := collapseRoles cPick m1 }) ∧
        (gameOverM d.multiverse false = true →
          d.noLynch wPick = StateX.Complete (completeNew wPick d.secretIds d.multiverse)) ∧
        (gameOverM d.multiverse false = false →
          d.noLynch wPick = StateX.Night
            { secretIds := d.secretIds
              lastHeals := d.lastHeals
              multiverse := d.multiverse }) := by
  unfold DaySt.canLynch at h
  cases hpos : posOf target d.secretIds with
  | none =>
    rw [hpos] at h
    cases h
  | some lynchId =>
    rw [hpos] at h
    rw [decide_eq_true_eq] at h
    refine ⟨lynchId, rfl, h, ?_⟩
    refine ⟨(d.multiverse.filter (fun u => u.alive.getD lynchId false)).map
      (fun u => u.kill lynchId false), ?_, ?_, ?_, ?_, ?_⟩
    · intro u2
      rw [List.mem_map]
      constructor
      · rintro ⟨u, hu, hval⟩
        rcases List.mem_filter.mp hu with ⟨humem, hualive⟩
        exact ⟨u, humem, hualive, hval.symm⟩
      · rintro ⟨u, humem, hualive, hval⟩
        exact ⟨u, List.mem_filter.mpr ⟨humem, hualive⟩, hval.symm⟩
    · intro u2 hu2
      rcases List.mem_map.mp hu2 with ⟨u, hu, hval⟩
      rcases List.mem_filter.mp hu with ⟨-, hualive⟩
      rw [← hval]
      unfold Universe.kill
      simp only [if_neg Bool.false_ne_true]
      exact getD_set_false (getD_true_lt hualive)
    · unfold DaySt.lynch
      rw [hpos]
      by_cases hgo : gameOverM (collapseRoles cPick
          ((d.multiverse.filter (fun u => u.alive.getD lynchId false)).map
            (fun u => u.kill lynchId false))) false = true
      · simp only [hgo, if_pos]
      · rw [Bool.not_eq_true] at hgo
        simp only [hgo]
        rfl
    · intro hgo
      unfold DaySt.noLynch
      rw [if_pos hgo]
    · intro hgo
      unfold DaySt.noLynch
      rw [hgo]
      rfl

/-- Witness for C7 at a concrete two-world day state. -/
theorem claim_C7_lynch_witness :
    let u1 : Universe :=
      { alive := [true, true, true]
        roles := [Role.Werewolf 0, Role.Detective, Role.Villager]
        factions := [Faction.Werewolves, Faction.Village, Faction.Village]
        heals := []
        kills := [] }
    let u2 : Universe :=
      { alive := [true, false, true]
        roles := [Role.Detective, Role.Werewolf 0, Role.Villager]
        factions := [Faction.Village, Faction.Werewolves, Faction.Village]
        heals := []
        kills := [] }
    let d : DaySt Nat :=
      { secretIds := [5, 6, 7]
        multiverse := [u1, u2]
        nightActionResults := [none, none, none]
        lastHeals := [none, none, none] }
    ∃ lynchId, posOf 6 d.secretIds = some lynchId ∧
      lynchId ∈ aliveIndices d.multiverse ∧
      ∃ m1,
        (∀ u2x, u2x ∈ m1 ↔ ∃ u ∈ d.multiverse, u.alive.getD lynchId false = true ∧
          u2x = { u with alive := u.alive.set lynchId false }) ∧
        (∀ u2x ∈ m1, u2x.alive.getD lynchId false = false) ∧
        d.lynch 6 (fun _ => 0) 0 = some
          (if gameOverM (collapseRoles (fun _ => 0) m1) false then
            StateX.Complete (completeNew 0 d.secretIds (collapseRoles (fun _ => 0) m1))
          else
            StateX.Night
              { secretIds := d.secretIds
                lastHeals := d.lastHeals
                multiverse := collapseRoles (fun _ => 0) m1 }) ∧
        (gameOverM d.multiverse false = true →
          d.noLynch 0 = StateX.Complete (completeNew 0 d.secretIds d.multiverse)) ∧
        (gameOverM d.multiverse false = false →
          d.noLynch 0 = StateX.Night
            { secretIds := d.secretIds
              lastHeals := d.lastHeals
              multiverse := d.multiverse }) := by
  intro u1 u2 d
  exact claim_C7_lynch d 6 (fun _ => 0) 0 (by decide)

/-! ### Claim C6: alive flags are monotone -/

/-- u2 descends from u without any resurrection: whoever is alive in u2 was
alive in u. -/
def aliveMono (u u2 : Universe) : Prop :=
  ∀ i, u2.alive.getD i false = true → u.alive.getD i false = true

/-- Every world of m2 descends from a world of m monotonically. -/
def Descends (m m2 : Multiverse) : Prop :=
  ∀ u2 ∈ m2, ∃ u ∈ m, aliveMono u u2

theorem aliveMono_of_alive_eq {u u2 : Universe} (h : u2.alive = u.alive) :
    aliveMono u u2 := by
  intro i hi
  rw [← h]
  exact hi

theorem aliveMono_refl (u : Universe) : aliveMono u u :=
  aliveMono_of_alive_eq rfl

theorem aliveMono_trans {u v w : Universe} (h1 : aliveMono u v) (h2 : aliveMono v w) :
    aliveMono u w :=
  fun i hi => h1 i (h2 i hi)

theorem Descends_refl (m : Multiverse) : Descends m m :=
  fun u hu => ⟨u, hu, aliveMono_refl u⟩

theorem Descends_trans {m1 m2 m3 : Multiverse} (h1 : Descends m1 m2)
    (h2 : Descends m2 m3) : Descends m1 m3 := by
  intro u3 hu3
  rcases h2 u3 hu3 with ⟨u2, hu2, h23⟩
  rcases h1 u2 hu2 with ⟨u1, hu1, h12⟩
  exact ⟨u1, hu1, aliveMono_trans h12 h23⟩

theorem Descends_map {m : Multiverse} {f : Universe → Universe}
    (h : ∀ u, aliveMono u (f u)) : Descends m (m.map f) := by
  intro u2 hu2
  rcases List.mem_map.mp hu2 with ⟨u, hu, hval⟩
  exact ⟨u, hu, hval ▸ h u⟩

theorem Descends_of_subset {m m2 : Multiverse} (h : ∀ u ∈ m2, u ∈ m) :
    Descends m m2 :=
  fun u hu => ⟨u, h u hu, aliveMono_refl u⟩

theorem Descends_filter {m : Multiverse} {p : Universe → Bool} :
    Descends m (m.filter p) :=
  Descends_of_subset (fun u hu => (List.mem_filter.mp hu).1)

/-- Setting a flag to false never turns a read from false to true. -/
theorem getD_set_false_mono {l : List Bool} {i j : Nat}
    (h : (l.set i false).getD j false = true) : l.getD j false = true := by
  by_cases hij : i = j
  · subst hij
    by_cases hlt : i < l.length
    · rw [getD_set_false hlt] at h
      cases h
    · rw [List.set_eq_of_length_le (by omega)] at h
      exact h
  · rw [List.getD_eq_getElem?_getD, List.getElem?_set_ne hij] at h
    rw [List.getD_eq_getElem?_getD]
    exact h

/-- A fold of dead-settings never resurrects. -/
theorem foldl_set_false_mono {j : Nat} :
    ∀ (ks : List Nat) (al : List Bool),
      (ks.foldl (fun a k => a.set k false) al).getD j false = true →
      al.getD j false = true := by
  intro ks
  induction ks with
  | nil =>
    intro al h
    exact h
  | cons k rest ih =>
    intro al h
    exact getD_set_false_mono (ih (al.set k false) h)

theorem aliveMono_resetWorld (u : Universe) : aliveMono u (resetWorld u) :=
  aliveMono_of_alive_eq rfl

theorem aliveMono_heal (u : Universe) (s t : Nat) : aliveMono u (applyHealWorld s t u) := by
  unfold applyHealWorld Universe.heal
  by_cases hc : canHeal u s t = true
  · rw [if_pos hc]
    exact aliveMono_of_alive_eq rfl
  · rw [if_neg hc]
    exact aliveMono_refl u

theorem aliveMono_killNight (u : Universe) (s t : Nat) :
    aliveMono u (applyKillWorld s t u) := by
  unfold applyKillWorld Universe.kill
  by_cases hc : canKill u s t = true
  · rw [if_pos hc, if_pos rfl]
    by_cases hh : t ∈ u.heals
    · rw [if_pos hh]
      exact aliveMono_refl u
    · rw [if_neg hh]
      exact aliveMono_of_alive_eq rfl
  · rw [if_neg hc]
    exact aliveMono_refl u

theorem aliveMono_killDay (u : Universe) (t : Nat) :
    aliveMono u (u.kill t false) := by
  unfold Universe.kill
  simp only [if_neg Bool.false_ne_true]
  intro i hi
  exact getD_set_false_mono hi

theorem aliveMono_dawn (u : Universe) : aliveMono u (dawnWorld u) := by
  intro i hi
  exact foldl_set_false_mono u.kills u.alive hi

/-- The collapse loop only discards worlds. -/
theorem collapseGo_subset :
    ∀ (fuel : Nat) (pick : Nat → Nat) (k : Nat) (fixed : List (Nat × Role)) (m : Multiverse),
      ∀ u ∈ collapseGo fuel pick k fixed m, u ∈ m := by
  intro fuel
  induction fuel with
  | zero =>
    intro pick k fixed m u hu
    exact hu
  | succ fuel ih =>
    intro pick k fixed m u hu
    unfold collapseGo at hu
    cases hr : rand (pick k) m with
    | none =>
      rw [hr] at hu
      exact hu
    | some w =>
      rw [hr] at hu
      simp only at hu
      by_cases hlen : (m.filter (agreesWith (recordDead m w fixed))).length = m.length
      · rw [if_pos hlen] at hu
        exact (List.mem_filter.mp hu).1
      · rw [if_neg hlen] at hu
        exact (List.mem_filter.mp (ih _ _ _ _ u hu)).1

theorem Descends_collapse (pick : Nat → Nat) (m : Multiverse) :
    Descends m (collapseRoles pick m) :=
  Descends_of_subset (fun u hu => collapseGo_subset _ _ _ _ _ u hu)

/-- The investigation arm never mutates a surviving world. -/
theorem Descends_investigate {pick s t : Nat} {m m2 : Multiverse}
    {results results2 : List (Option NightActionResult)}
    (h : applyInvestigate pick s t m results = some (m2, results2)) : Descends m m2 := by
  unfold applyInvestigate at h
  cases hr : rand pick (detectiveCandidates m s) with
  | none =>
    rw [hr] at h
    cases h
    exact Descends_refl m
  | some w =>
    rw [hr] at h
    simp only at h
    cases hres : results.getD s none with
    | some r =>
      rw [hres] at h
      cases h
    | none =>
      rw [hres] at h
      cases h
      exact Descends_filter

/-- Each resolution step leaves the multiverse descending monotonically. -/
theorem resolveActions_descends :
    ∀ (acts : List (NightAction Nat)) (invPick : Nat → Nat) (k : Nat)
      (st st2 : Multiverse × List (Option Nat) × List (Option NightActionResult)),
      resolveActions invPick k acts st = some st2 → Descends st.1 st2.1 := by
  intro acts
  induction acts with
  | nil =>
    intro invPick k st st2 h
    cases h
    exact Descends_refl _
  | cons a rest ih =>
    intro invPick k st st2 h
    unfold resolveActions at h
    cases hstep : resolveActionStep (invPick k) st a with
    | none =>
      rw [hstep] at h
      cases h
    | some stm =>
      rw [hstep] at h
      have hrest := ih invPick (k + 1) stm st2 h
      refine Descends_trans ?_ hrest
      unfold resolveActionStep at hstep
      cases a with
      | Heal s t =>
        simp only at hstep
        cases hstep
        exact Descends_map (fun u => aliveMono_heal u s t)
      | Investigate s t =>
        simp only at hstep
        cases hinv : applyInvestigate (invPick k) s t st.1 st.2.2 with
        | none =>
          rw [hinv] at hstep
          cases hstep
        | some pr =>
          rw [hinv] at hstep
          cases pr with
          | mk prm prr =>
            simp only at hstep
            cases hstep
            exact Descends_investigate hinv
      | Kill s t =>
        simp only at hstep
        cases hstep
        exact Descends_map (fun u => aliveMono_killNight u s t)

/-- One operation leaves the multiverse descending monotonically. -/
theorem applyOp_descends {op : Op} {m m2 : Multiverse} (h : applyOp op m = some m2) :
    Descends m m2 := by
  cases op with
  | night numIds acts invPick cPick =>
    unfold applyOp at h
    simp only at h
    cases hres : resolveActions invPick 0 acts
        (m.map resetWorld, List.replicate numIds none, List.replicate numIds none) with
    | none =>
      rw [hres] at h
      cases h
    | some st =>
      rw [hres] at h
      cases h
      refine Descends_trans (Descends_map aliveMono_resetWorld) ?_
      refine Descends_trans (resolveActions_descends _ _ _ _ _ hres) ?_
      refine Descends_trans (Descends_map aliveMono_dawn) ?_
      exact Descends_collapse cPick _
  | lynchOp lynchId cPick =>
    unfold applyOp at h
    cases h
    have h1 : Descends m (m.filter (fun u => u.alive.getD lynchId false)) :=
      Descends_filter
    have h2 := Descends_trans h1 (Descends_map (fun u => aliveMono_killDay u lynchId))
    exact Descends_trans h2 (Descends_collapse cPick _)
  | noLynchOp =>
    cases h
    exact Descends_refl m
  | collapseOp pick =>
    cases h
    exact Descends_collapse pick m

/-- C6: along any sequence of operations, every surviving world descends
from a world of the initial multiverse whose alive flags dominate it: a
player alive afterwards was alive before, so no operation ever turns an
alive flag from false back to true. -/
theorem claim_C6_alive_monotone (ops : List Op) (m m2 : Multiverse)
    (hrun : applyOps ops m = some m2) :
    ∀ u2 ∈ m2, ∃ u ∈ m, ∀ i, u2.alive.getD i false = true →
      u.alive.getD i false = true := by
  induction ops generalizing m with
  | nil =>
    cases hrun
    exact fun u2 hu2 => ⟨u2, hu2, fun i hi => hi⟩
  | cons op rest ih =>
    unfold applyOps at hrun
    cases hop : applyOp op m with
    | none =>
      rw [hop] at hrun
      cases hrun
    | some mm =>
      rw [hop] at hrun
      intro u2 hu2
      rcases ih mm hrun u2 hu2 with ⟨u1, hu1, h12⟩
      rcases applyOp_descends hop u1 hu1 with ⟨u0, hu0, h01⟩
      exact ⟨u0, hu0, fun i hi => h01 i (h12 i hi)⟩

/-- Witness for C6 on a concrete lynch-then-collapse run. -/
theorem claim_C6_alive_monotone_witness :
    let w : Universe :=
      { alive := [true, true]
        roles := [Role.Werewolf 0, Role.Villager]
        factions := [Faction.Werewolves, Faction.Village]
        heals := []
        kills := [] }
    let w2 : Universe :=
      { alive := [false, true]
        roles := [Role.Werewolf 0, Role.Villager]
        factions := [Faction.Werewolves, Faction.Village]
        heals := []
        kills := [] }
    ∃ u ∈ ([w] : Multiverse), ∀ i, w2.alive.getD i false = true →
      u.alive.getD i false = true := by
  intro w w2
  exact claim_C6_alive_monotone [Op.lynchOp 0 (fun _ => 0)] [w] [w2] (by decide) w2 (by decide)

/-! ### Claim C2: multiverse construction -/

/-- A role vector is a placement of the requested roles: it has one slot per
player, contains each requested role exactly once, and is Villager
everywhere else. -/
def isPlacement (roles : List Role) (numPlayers : Nat) (p : List Role) : Prop :=
  p.length = numPlayers ∧ (∀ r ∈ roles, p.count r = 1) ∧
  (∀ x ∈ p, x = Role.Villager ∨ x ∈ roles)

/-- A conditional filterMap is a map over the filtered list. -/
theorem filterMap_if_eq_map_filter {Q : Nat → Prop} [DecidablePred Q] {g : Nat → List Role} :
    ∀ l : List Nat,
      (l.filterMap (fun i => if Q i then some (g i) else none)) =
      (l.filter (fun i => decide (Q i))).map g := by
  intro l
  induction l with
  | nil => rfl
  | cons i rest ih =>
    by_cases hq : Q i <;>
      simp [List.filterMap_cons, List.filter_cons, hq, ih]

/-- The number of Villager positions of a role vector is its Villager
count. -/
theorem length_villagerPositions :
    ∀ l : List Role,
      ((List.range l.length).filter
        (fun i => decide (l.getD i Role.Villager = Role.Villager))).length =
      l.count Role.Villager := by
  intro l
  induction l with
  | nil => rfl
  | cons a rest ih =>
    have hmap : (List.map Nat.succ (List.range rest.length)).filter
        (fun i => decide ((a :: rest).getD i Role.Villager = Role.Villager)) =
        List.map Nat.succ ((List.range rest.length).filter
          (fun i => decide (rest.getD i Role.Villager = Role.Villager))) := by
      rw [List.filter_map]
      rfl
    rw [List.length_cons, List.range_succ_eq_map, List.filter_cons, List.count_cons, hmap]
    by_cases hv : a = Role.Villager
    · have h0 : (decide ((a :: rest).getD 0 Role.Villager = Role.Villager)) = true := by
        rw [decide_eq_true_eq, List.getD_cons_zero]
        exact hv
      have hbeq : (a == Role.Villager) = true := by
        rw [beq_iff_eq]
        exact hv
      rw [if_pos h0, hbeq, if_pos rfl, List.length_cons, List.length_map, ih]
    · have h0 : (decide ((a :: rest).getD 0 Role.Villager = Role.Villager)) = false := by
        rw [decide_eq_false_iff_not, List.getD_cons_zero]
        exact hv
      have hbeq : (a == Role.Villager) = false := by
        rw [beq_eq_false_iff_ne]
        exact hv
      rw [if_neg (by rw [h0]; exact Bool.false_ne_true), hbeq,
        if_neg Bool.false_ne_true, List.length_map, ih]
      omega

/-- Sum of a constant over a list. -/
theorem sum_map_const_of {l : List α} {g : α → Nat} {c : Nat}
    (h : ∀ x ∈ l, g x = c) : (l.map g).sum = l.length * c := by
  induction l with
  | nil => simp
  | cons x rest ih =>
    rw [List.map_cons, List.sum_cons, ih (fun y hy => h y (by simp [hy])),
      h x (by simp), List.length_cons]
    ring

/-- Each construction step multiplies the number of permutations by the
common Villager count. -/
theorem placeStep_length {perms : List (List Role)} {role : Role} {c : Nat}
    (h : ∀ p ∈ perms, p.count Role.Villager = c) :
    (placeStep perms role).length = perms.length * c := by
  unfold placeStep
  rw [List.length_flatMap]
  apply sum_map_const_of
  intro p hp
  simp only [Function.comp_apply]
  rw [filterMap_if_eq_map_filter, List.length_map, length_villagerPositions]
  exact h p hp

/-- Membership in one construction step. -/
theorem mem_placeStep {perms : List (List Role)} {role : Role} {q : List Role} :
    q ∈ placeStep perms role ↔
      ∃ p ∈ perms, ∃ i, i < p.length ∧ p.getD i Role.Villager = Role.Villager ∧
        q = p.set i role := by
  unfold placeStep
  rw [List.mem_flatMap]
  constructor
  · rintro ⟨p, hp, hq⟩
    rcases List.mem_filterMap.mp hq with ⟨i, hi, hsome⟩
    by_cases hc : p.getD i Role.Villager = Role.Villager
    · rw [if_pos hc] at hsome
      exact ⟨p, hp, i, List.mem_range.mp hi, hc, (Option.some.inj hsome).symm⟩
    · rw [if_neg hc] at hsome
      cases hsome
  · rintro ⟨p, hp, i, hi, hc, hq⟩
    refine ⟨p, hp, List.mem_filterMap.mpr ⟨i, List.mem_range.mpr hi, ?_⟩⟩
    rw [if_pos hc, hq]

/-- Each construction step preserves length and decrements the Villager
count, for a non-Villager role. -/
theorem placeStep_invariant {perms : List (List Role)} {role : Role} {c numPlayers : Nat}
    (hrole : role ≠ Role.Villager)
    (h : ∀ p ∈ perms, p.length = numPlayers ∧ p.count Role.Villager = c) :
    ∀ q ∈ placeStep perms role, q.length = numPlayers ∧ q.count Role.Villager = c - 1 := by
  intro q hq
  rcases mem_placeStep.mp hq with ⟨p, hp, i, hi, hc, hqval⟩
  rcases h p hp with ⟨hplen, hpcount⟩
  subst hqval
  refine ⟨by rw [List.length_set]; exact hplen, ?_⟩
  rw [List.count_set _ _ _ _ hi]
  have hpi : p[i] = Role.Villager := by
    rw [← List.getD_eq_getElem p Role.Villager hi]
    exact hc
  have h2 : (role == Role.Villager) = false := by
    rw [beq_eq_false_iff_ne]
    exact hrole
  rw [hpi, beq_self_eq_true, h2, if_pos rfl, if_neg Bool.false_ne_true, hpcount]
  omega

/-- The construction fold multiplies the permutation count by the falling
factorial of the common Villager count. -/
theorem foldl_placeStep_length :
    ∀ (roles : List Role) (perms : List (List Role)) (numPlayers c : Nat),
      (∀ r ∈ roles, r ≠ Role.Villager) →
      (∀ p ∈ perms, p.length = numPlayers ∧ p.count Role.Villager = c) →
      roles.length ≤ c →
      (roles.foldl placeStep perms).length = perms.length * Nat.descFactorial c roles.length := by
  intro roles
  induction roles with
  | nil =>
    intro perms numPlayers c _ _ _
    rw [List.foldl_nil, List.length_nil, Nat.descFactorial_zero]
    omega
  | cons r rs ih =>
    intro perms numPlayers c hnv hinv hle
    rw [List.foldl_cons]
    have hc1 : 1 ≤ c := by
      rw [List.length_cons] at hle
      omega
    have hrne : r ≠ Role.Villager := hnv r (by simp)
    have hstep := placeStep_invariant hrne hinv
    have hrec := ih (placeStep perms r) numPlayers (c - 1)
      (fun r2 h2 => hnv r2 (by simp [h2]))
      hstep
      (by rw [List.length_cons] at hle; omega)
    rw [hrec, placeStep_length (fun p hp => (hinv p hp).2)]
    rw [List.length_cons]
    have hcs : c = (c - 1) + 1 := by omega
    rw [hcs, Nat.succ_descFactorial_succ]
    have : c - 1 + 1 - 1 = c - 1 := by omega
    rw [this]
    ring

/-- Reduced conditionals on Bool-equality literals. -/
theorem ite_false_eq_true {a b : Nat} : (if false = true then a else b) = b :=
  if_neg Bool.false_ne_true

/-- Reduced conditionals on Bool-equality literals, positive case. -/
theorem ite_true_eq_true {a b : Nat} : (if true = true then a else b) = a :=
  if_pos rfl

/-- Reduced conditionals on a True condition. -/
theorem ite_True_nat {a b : Nat} : (if True then a else b) = a :=
  if_pos trivial

/-- Reduced conditionals on a False condition. -/
theorem ite_False_nat {a b : Nat} : (if False then a else b) = b :=
  if_neg (fun h => h)

/-- Setting a slot to the value it already holds changes nothing. -/
theorem set_same {l : List Role} {i : Nat} {a : Role} (h : i < l.length)
    (hv : l[i] = a) : l.set i a = l := by
  apply List.ext_getElem
  · rw [List.length_set]
  · intro j h1 h2
    by_cases hij : i = j
    · subst hij
      rw [List.getElem_set_self]
      exact hv.symm
    · rw [List.getElem_set_ne hij]

/-- Two distinct positions holding the same value force a count of at least
two. -/
theorem two_le_count_of_two_pos {a : Role} :
    ∀ (l : List Role) (i j : Nat), i < j → ∀ h1 : i < l.length, ∀ h2 : j < l.length,
      l[i] = a → l[j] = a → 2 ≤ l.count a := by
  intro l
  induction l with
  | nil =>
    intro i j _ h1 _ _ _
    cases h1
  | cons x rest ih =>
    intro i j hij h1 h2 hi hj
    rw [List.length_cons] at h1 h2
    cases i with
    | zero =>
      cases j with
      | zero => omega
      | succ j2 =>
        have hx : x = a := hi
        simp only [List.getElem_cons_succ] at hj
        have hmem : a ∈ rest :=
          List.mem_iff_getElem.mpr ⟨j2, by omega, hj⟩
        rw [List.count_cons]
        have hxa : (x == a) = true := by
          rw [beq_iff_eq]
          exact hx
        rw [hxa, if_pos rfl]
        have := List.count_pos_iff.mpr hmem
        omega
    | succ i2 =>
      cases j with
      | zero => omega
      | succ j2 =>
        simp only [List.getElem_cons_succ] at hi hj
        have := ih i2 j2 (by omega) (by omega) (by omega) hi hj
        rw [List.count_cons]
        omega

/-- In a list containing a value exactly once, its position is unique. -/
theorem count_one_unique_pos {a : Role} {l : List Role} {i j : Nat}
    (hcount : l.count a = 1) (h1 : i < l.length) (h2 : j < l.length)
    (hi : l[i] = a) (hj : l[j] = a) : i = j := by
  by_contra hij
  rcases Nat.lt_or_ge i j with h | h
  · have := two_le_count_of_two_pos l i j h h1 h2 hi hj
    omega
  · have hji : j < i := by omega
    have := two_le_count_of_two_pos l j i hji h2 h1 hj hi
    omega

/-- Membership in the construction fold characterizes placements. -/
theorem foldl_placeStep_mem (numPlayers : Nat) :
    ∀ (roles : List Role), roles.Nodup → Role.Villager ∉ roles →
      ∀ q, q ∈ roles.foldl placeStep [List.replicate numPlayers Role.Villager] ↔
        isPlacement roles numPlayers q := by
  intro roles
  induction roles using List.reverseRecOn with
  | nil =>
    intro _ _ q
    rw [List.foldl_nil]
    unfold isPlacement
    constructor
    · intro hq
      have : q = List.replicate numPlayers Role.Villager := by
        rcases List.mem_cons.mp hq with h | h
        · exact h
        · cases h
      rcases List.eq_replicate_iff.mp this with ⟨hlen, hall⟩
      refine ⟨hlen, ?_, ?_⟩
      · intro r hr
        cases hr
      · exact fun x hx => Or.inl (hall x hx)
    · rintro ⟨hlen, -, hall⟩
      have : q = List.replicate numPlayers Role.Villager := by
        rw [List.eq_replicate_iff]
        refine ⟨hlen, fun b hb => ?_⟩
        rcases hall b hb with h | h
        · exact h
        · cases h
      rw [this]
      exact List.mem_cons_self _ _
  | append_singleton rs r ih =>
    intro hnodup hnv q
    have hrsnodup : rs.Nodup := (List.nodup_append.mp hnodup).1
    have hrnotin : r ∉ rs := by
      intro hcon
      exact (List.nodup_append.mp hnodup).2.2 hcon (List.mem_cons_self _ _)
    have hvrs : Role.Villager ∉ rs := fun hcon => hnv (List.mem_append_left _ hcon)
    have hrv : r ≠ Role.Villager := by
      intro hcon
      exact hnv (List.mem_append_right _ (by rw [hcon]; exact List.mem_cons_self _ _))
    rw [List.foldl_append, List.foldl_cons, List.foldl_nil, mem_placeStep]
    constructor
    · rintro ⟨p, hp, i, hi, hslot, hq⟩
      rcases (ih hrsnodup hvrs p).mp hp with ⟨hplen, hpcount, hpall⟩
      have hpi : p[i] = Role.Villager := by
        rw [← List.getD_eq_getElem p Role.Villager hi]
        exact hslot
      have hrp : r ∉ p := by
        intro hcon
        rcases hpall r hcon with h | h
        · exact hrv h
        · exact hrnotin h
      refine ⟨?_, ?_, ?_⟩
      · rw [hq, List.length_set]
        exact hplen
      · intro r2 hr2
        rcases List.mem_append.mp hr2 with h | h
        · have hr2r : r2 ≠ r := fun hcon => hrnotin (hcon ▸ h)
          have hr2v : r2 ≠ Role.Villager := fun hcon => hvrs (hcon ▸ h)
          rw [hq, List.count_set _ _ _ _ hi, hpi]
          have hb1 : (Role.Villager == r2) = false := by
            rw [beq_eq_false_iff_ne]
            exact fun hcon => hr2v hcon.symm
          have hb2 : (r == r2) = false := by
            rw [beq_eq_false_iff_ne]
            exact fun hcon => hr2r hcon.symm
          rw [hb1, hb2]
          simp only [ite_false_eq_true, ite_True_nat, ite_False_nat]
          have := hpcount r2 h
          omega
        · have hr2 : r2 = r := by
            rcases List.mem_cons.mp h with h2 | h2
            · exact h2
            · cases h2
          subst hr2
          rw [hq, List.count_set _ _ _ _ hi, hpi]
          have hb1 : (Role.Villager == r2) = false := by
            rw [beq_eq_false_iff_ne]
            exact fun hcon => hrv hcon.symm
          rw [hb1, beq_self_eq_true]
          simp only [ite_false_eq_true, ite_true_eq_true, ite_True_nat, ite_False_nat]
          have : p.count r2 = 0 := List.count_eq_zero.mpr hrp
          omega
      · intro x hx
        rw [hq] at hx
        rcases List.mem_or_eq_of_mem_set hx with h | h
        · rcases hpall x h with h2 | h2
          · exact Or.inl h2
          · exact Or.inr (List.mem_append_left _ h2)
        · exact Or.inr (List.mem_append_right _ (by rw [h]; exact List.mem_cons_self _ _))
    · rintro ⟨hqlen, hqcount, hqall⟩
      have hrcount : q.count r = 1 := hqcount r (List.mem_append_right _ (List.mem_cons_self _ _))
      have hrmem : r ∈ q := List.count_pos_iff.mp (by omega)
      rcases List.mem_iff_getElem.mp hrmem with ⟨i, hi, hqi⟩
      refine ⟨q.set i Role.Villager, ?_, i, ?_, ?_, ?_⟩
      · apply (ih hrsnodup hvrs _).mpr
        refine ⟨by rw [List.length_set]; exact hqlen, ?_, ?_⟩
        · intro r2 hr2
          have hr2r : r2 ≠ r := fun hcon => hrnotin (hcon ▸ hr2)
          have hr2v : r2 ≠ Role.Villager := fun hcon => hvrs (hcon ▸ hr2)
          rw [List.count_set _ _ _ _ hi, hqi]
          have hb1 : (r == r2) = false := by
            rw [beq_eq_false_iff_ne]
            exact fun hcon => hr2r hcon.symm
          have hb2 : (Role.Villager == r2) = false := by
            rw [beq_eq_false_iff_ne]
            exact fun hcon => hr2v hcon.symm
          rw [hb1, hb2]
          simp only [ite_false_eq_true, ite_True_nat, ite_False_nat]
          have := hqcount r2 (List.mem_append_left _ hr2)
          omega
        · intro x hx
          have hrq : (q.set i Role.Villager).count r = 0 := by
            rw [List.count_set _ _ _ _ hi, hqi, beq_self_eq_true]
            have hb2 : (Role.Villager == r) = false := by
              rw [beq_eq_false_iff_ne]
              exact fun hcon => hrv hcon.symm
            rw [hb2]
            simp only [ite_false_eq_true, ite_true_eq_true, ite_True_nat, ite_False_nat]
            omega
          have hxr : x ≠ r := by
            intro hcon
            subst hcon
            exact (List.count_eq_zero.mp hrq) hx
          rcases List.mem_or_eq_of_mem_set hx with h | h
          · rcases hqall x h with h2 | h2
            · exact Or.inl h2
            · rcases List.mem_append.mp h2 with h3 | h3
              · exact Or.inr h3
              · rcases List.mem_cons.mp h3 with h4 | h4
                · exact absurd h4 hxr
                · cases h4
          · exact Or.inl h
      · rw [List.length_set]
        exact hi
      · have hlt : i < (q.set i Role.Villager).length := by
          rw [List.length_set]
          exact hi
        rw [List.getD_eq_getElem _ _ hlt, List.getElem_set_self]
      · rw [List.set_set]
        exact (set_same hi hqi).symm

/-- Membership in the fork list of a single permutation. -/
theorem mem_placeStep_single {p : List Role} {role : Role} {q : List Role} :
    q ∈ (List.range p.length).filterMap
      (fun i => if p.getD i Role.Villager = Role.Villager then some (p.set i role) else none) ↔
    ∃ i, i < p.length ∧ p.getD i Role.Villager = Role.Villager ∧ q = p.set i role := by
  rw [List.mem_filterMap]
  constructor
  · rintro ⟨i, hi, hsome⟩
    by_cases hc : p.getD i Role.Villager = Role.Villager
    · rw [if_pos hc] at hsome
      exact ⟨i, List.mem_range.mp hi, hc, (Option.some.inj hsome).symm⟩
    · rw [if_neg hc] at hsome
      cases hsome
  · rintro ⟨i, hi, hc, hq⟩
    refine ⟨i, List.mem_range.mpr hi, ?_⟩
    rw [if_pos hc, hq]

/-- The construction fold produces no duplicate permutations. -/
theorem foldl_placeStep_nodup (numPlayers : Nat) :
    ∀ (roles : List Role), roles.Nodup → Role.Villager ∉ roles →
      (roles.foldl placeStep [List.replicate numPlayers Role.Villager]).Nodup := by
  intro roles
  induction roles using List.reverseRecOn with
  | nil =>
    intro _ _
    exact List.nodup_singleton _
  | append_singleton rs r ih =>
    intro hnodup hnv
    have hrsnodup : rs.Nodup := (List.nodup_append.mp hnodup).1
    have hrnotin : r ∉ rs := by
      intro hcon
      exact (List.nodup_append.mp hnodup).2.2 hcon (List.mem_cons_self _ _)
    have hvrs : Role.Villager ∉ rs := fun hcon => hnv (List.mem_append_left _ hcon)
    have hrv : r ≠ Role.Villager := by
      intro hcon
      exact hnv (List.mem_append_right _ (by rw [hcon]; exact List.mem_cons_self _ _))
    rw [List.foldl_append, List.foldl_cons, List.foldl_nil]
    unfold placeStep
    rw [List.nodup_flatMap]
    constructor
    · intro p hp
      rw [filterMap_if_eq_map_filter]
      apply List.Nodup.map_on
      · intro i hifil j hjfil hset
        rcases List.mem_filter.mp hifil with ⟨hirange, hic⟩
        rcases List.mem_filter.mp hjfil with ⟨hjrange, hjc⟩
        have hi : i < p.length := List.mem_range.mp hirange
        have hj : j < p.length := List.mem_range.mp hjrange
        by_contra hij
        have hpi : p[i] = Role.Villager := by
          rw [← List.getD_eq_getElem p Role.Villager hi]
          exact decide_eq_true_eq.mp hic
        have hlt : i < (p.set i r).length := by
          rw [List.length_set]
          exact hi
        have hlt2 : i < (p.set j r).length := by
          rw [List.length_set]
          exact hi
        have h1 : (p.set i r)[i]? = some r := by
          rw [List.getElem?_eq_getElem hlt, List.getElem_set_self hlt]
        have h2 : (p.set j r)[i]? = some p[i] := by
          rw [List.getElem?_eq_getElem hlt2,
            List.getElem_set_ne (fun hcon => hij hcon.symm) hlt2]
        rw [hset, h2] at h1
        have : p[i] = r := Option.some.inj h1
        rw [hpi] at this
        exact hrv this.symm
      · exact (List.nodup_range _).filter _
    · have hpair : List.Pairwise (fun p p2 => p ≠ p2)
          (rs.foldl placeStep [List.replicate numPlayers Role.Villager]) :=
        ih hrsnodup hvrs
      refine List.Pairwise.imp_of_mem ?_ hpair
      intro p p2 hp hp2 hne
      intro q hq hq2
      have hqmem : q ∈ placeStep (rs.foldl placeStep [List.replicate numPlayers Role.Villager]) r :=
        List.mem_flatMap.mpr ⟨p, hp, hq⟩
      have hqplace : isPlacement (rs ++ [r]) numPlayers q := by
        apply (foldl_placeStep_mem numPlayers (rs ++ [r]) hnodup hnv q).mp
        rw [List.foldl_append, List.foldl_cons, List.foldl_nil]
        exact hqmem
      rcases mem_placeStep_single.mp hq with ⟨i, hi, hslot, hqi⟩
      rcases mem_placeStep_single.mp hq2 with ⟨j, hj, hslot2, hqj⟩
      subst hqi
      have hpi : p[i] = Role.Villager := by
        rw [← List.getD_eq_getElem p Role.Villager hi]
        exact hslot
      have hp2j : p2[j] = Role.Villager := by
        rw [← List.getD_eq_getElem p2 Role.Villager hj]
        exact hslot2
      have hleneq : p.length = p2.length := by
        have := congrArg List.length hqj
        rw [List.length_set, List.length_set] at this
        exact this
      have hbi : i < (p.set i r).length := by
        rw [List.length_set]
        exact hi
      have hbj : j < (p.set i r).length := by
        rw [List.length_set, hleneq]
        exact hj
      have hcount : (p.set i r).count r = 1 :=
        hqplace.2.1 r (List.mem_append_right _ (List.mem_cons_self _ _))
      have hseti : (p.set i r)[i] = r := List.getElem_set_self hbi
      have hsetj : (p.set i r)[j] = r := by
        have hbj2 : j < (p2.set j r).length := by
          rw [List.length_set]
          exact hj
        have hq2e : (p2.set j r)[j]? = some r := by
          rw [List.getElem?_eq_getElem hbj2, List.getElem_set_self hbj2]
        rw [← hqj, List.getElem?_eq_getElem hbj] at hq2e
        exact Option.some.inj hq2e
      have hij : i = j := count_one_unique_pos hcount hbi hbj hseti hsetj
      subst hij
      have hpeq : p = p2 := by
        have h1 : (p.set i r).set i Role.Villager = p := by
          rw [List.set_set]
          exact set_same hi hpi
        have h2 : (p2.set i r).set i Role.Villager = p2 := by
          rw [List.set_set]
          exact set_same (by rw [← hleneq]; exact hi) hp2j
        rw [← h1, hqj, h2]
      exact hne hpeq

/-- C2: for pairwise-distinct non-Villager requested roles fitting into the
player count, Multiverse::new yields exactly the falling-factorial number
of worlds, these are exactly the placements of the requested roles into the
player slots with every remaining slot Villager, without duplicates; in
particular one werewolf among three players gives 3 worlds and one werewolf
plus a detective give 6. -/
theorem claim_C2_multiverse_new (roles : List Role) (numPlayers : Nat)
    (hnodup : roles.Nodup) (hnv : Role.Villager ∉ roles)
    (hlen : roles.length ≤ numPlayers) :
    (Multiverse.new roles numPlayers).length = Nat.descFactorial numPlayers roles.length ∧
    (∀ u ∈ Multiverse.new roles numPlayers,
      ∃ p, isPlacement roles numPlayers p ∧ u = Universe.ofRoles p) ∧
    (∀ p, isPlacement roles numPlayers p →
      Universe.ofRoles p ∈ Multiverse.new roles numPlayers) ∧
    (Multiverse.new roles numPlayers).Nodup ∧
    (Multiverse.new [Role.Werewolf 0] 3).length = 3 ∧
    (Multiverse.new [Role.Werewolf 0, Role.Detective] 3).length = 6 := by
  have hroles : ∀ r ∈ roles, r ≠ Role.Villager := by
    intro r hr hcon
    exact hnv (hcon ▸ hr)
  refine ⟨?_, ?_, ?_, ?_, by decide, by decide⟩
  · unfold Multiverse.new
    rw [List.length_map]
    have := foldl_placeStep_length roles [List.replicate numPlayers Role.Villager]
      numPlayers numPlayers hroles ?_ hlen
    · rw [this]
      simp
    · intro p hp
      have hpv : p = List.replicate numPlayers Role.Villager := by
        rcases List.mem_cons.mp hp with h | h
        · exact h
        · cases h
      subst hpv
      refine ⟨List.length_replicate _ _, ?_⟩
      rw [List.count_replicate, beq_self_eq_true, if_pos rfl]
  · intro u hu
    unfold Multiverse.new at hu
    rcases List.mem_map.mp hu with ⟨p, hp, hval⟩
    exact ⟨p, (foldl_placeStep_mem numPlayers roles hnodup hnv p).mp hp, hval.symm⟩
  · intro p hp
    unfold Multiverse.new
    exact List.mem_map.mpr ⟨p, (foldl_placeStep_mem numPlayers roles hnodup hnv p).mpr hp, rfl⟩
  · unfold Multiverse.new
    apply List.Nodup.map_on
    · intro p hpmem p2 hp2mem heq
      have := congrArg Universe.roles heq
      exact this
    · exact foldl_placeStep_nodup numPlayers roles hnodup hnv

/-- Witness for C2 at the spec's second example: one werewolf and one
detective among three players. -/
theorem claim_C2_multiverse_new_witness :
    (Multiverse.new [Role.Werewolf 0, Role.Detective] 3).length =
      Nat.descFactorial 3 ([Role.Werewolf 0, Role.Detective] : List Role).length ∧
    (∀ u ∈ Multiverse.new [Role.Werewolf 0, Role.Detective] 3,
      ∃ p, isPlacement [Role.Werewolf 0, Role.Detective] 3 p ∧ u = Universe.ofRoles p) ∧
    (∀ p, isPlacement [Role.Werewolf 0, Role.Detective] 3 p →
      Universe.ofRoles p ∈ Multiverse.new [Role.Werewolf 0, Role.Detective] 3) ∧
    (Multiverse.new [Role.Werewolf 0, Role.Detective] 3).Nodup ∧
    (Multiverse.new [Role.Werewolf 0] 3).length = 3 ∧
    (Multiverse.new [Role.Werewolf 0, Role.Detective] 3).length = 6 :=
  claim_C2_multiverse_new [Role.Werewolf 0, Role.Detective] 3
    (by decide) (by decide) (by decide)

/-! ### Claim C8: batch-action sanitization -/

/-- Counterexample to C8 as stated: an investigation whose target is a
player dead in every world is kept by sanitized_night_actions, although the
claim lists a dead-in-all-worlds target among the discard criteria for
every action kind.  (The code checks the target's liveness for heals and
kills but not for investigations.) -/
theorem claim_C8_sanitization_counterexample :
    let u : Universe :=
      { alive := [true, true, false]
        roles := [Role.Detective, Role.Werewolf 0, Role.Villager]
        factions := [Faction.Village, Faction.Werewolves, Faction.Village]
        heals := []
        kills := [] }
    let n : NightSt Nat :=
      { secretIds := [0, 1, 2]
        lastHeals := [none, none, none]
        multiverse := [u] }
    (2 ∉ aliveIndices n.multiverse) ∧
    NightAction.Investigate 0 2 ∈
      sanitizedNightActions n (fun _ => 0) [NightAction.Investigate 0 2] := by
  intro u n
  exact ⟨by decide, by decide⟩

/-- The oracle-chosen target of a synthesized compulsory kill. -/
def synthTarget (m : Multiverse) (pickv : Nat) : Nat :=
  (aliveIndices m).getD (pickv % (aliveIndices m).length) 0

/-- The kills synthesized for the players alive somewhere who have no kept
kill, in player-index order. -/
def synthKills (n : NightSt P) (pick : Nat → Nat)
    (base : List (NightAction Nat)) : List (NightAction Nat) :=
  ((List.range n.secretIds.length).filter (fun sid =>
      decide (sid ∈ aliveIndices n.multiverse) && !(hasKillFrom base sid))).map
    (fun sid => NightAction.Kill sid (synthTarget n.multiverse (pick sid)))

/-- Sampling from a nonempty index list reads the oracle position. -/
theorem rand_nat_eq_getD {l : List Nat} (h : l ≠ []) (k : Nat) :
    rand k l = some (l.getD (k % l.length) 0) := by
  rcases rand_eq_some k l h with ⟨hlt, heq⟩
  rw [heq, List.get_eq_getElem, List.getD_eq_getElem _ _ hlt]

/-- Sampling the compulsory-kill target yields exactly synthTarget. -/
theorem rand_synthTarget {m : Multiverse} (h : aliveIndices m ≠ []) (k : Nat) :
    rand k (aliveIndices m) = some (synthTarget m k) :=
  rand_nat_eq_getD h k

/-- Appending a kill extends the duplicate test by its source. -/
theorem hasKillFrom_append {res : List (NightAction Nat)} {sid rid sid2 : Nat} :
    hasKillFrom (res ++ [NightAction.Kill sid rid]) sid2 =
      (hasKillFrom res sid2 || decide (sid = sid2)) := by
  unfold hasKillFrom
  rw [List.any_append]
  simp

/-- A live unkilled index makes the compulsory step append the synthesized
kill. -/
theorem compulsoryStep_pos {n : NightSt P} {pick : Nat → Nat}
    {res : List (NightAction Nat)} {sid : Nat}
    (hcond : (decide (sid ∈ aliveIndices n.multiverse) && !(hasKillFrom res sid)) = true)
    (hanne : aliveIndices n.multiverse ≠ []) :
    compulsoryStep n pick res sid =
      res ++ [NightAction.Kill sid (synthTarget n.multiverse (pick sid))] := by
  unfold compulsoryStep
  rw [if_pos hcond, rand_synthTarget hanne (pick sid)]

/-- Otherwise the compulsory step changes nothing. -/
theorem compulsoryStep_neg {n : NightSt P} {pick : Nat → Nat}
    {res : List (NightAction Nat)} {sid : Nat}
    (hcond : ¬(decide (sid ∈ aliveIndices n.multiverse) && !(hasKillFrom res sid)) = true) :
    compulsoryStep n pick res sid = res := by
  unfold compulsoryStep
  rw [if_neg hcond]

/-- The compulsory-kill loop appends exactly the synthesized kills of the
processed indices, judged against the incoming kept list. -/
theorem addKills_go (n : NightSt P) (pick : Nat → Nat) :
    ∀ (l : List Nat), l.Nodup → ∀ (res : List (NightAction Nat)),
      l.foldl (compulsoryStep n pick) res =
      res ++ ((l.filter (fun sid =>
        decide (sid ∈ aliveIndices n.multiverse) && !(hasKillFrom res sid))).map
          (fun sid => NightAction.Kill sid (synthTarget n.multiverse (pick sid)))) := by
  intro l
  induction l with
  | nil =>
    intro _ res
    simp
  | cons sid rest ih =>
    intro hnodup res
    rw [List.foldl_cons, List.filter_cons]
    by_cases hcond : (decide (sid ∈ aliveIndices n.multiverse) && !(hasKillFrom res sid)) = true
    · have hcond2 := hcond
      rw [Bool.and_eq_true] at hcond2
      have hmem : sid ∈ aliveIndices n.multiverse := of_decide_eq_true hcond2.1
      have hanne : aliveIndices n.multiverse ≠ [] := List.ne_nil_of_mem hmem
      have hfil : rest.filter (fun sid2 =>
          decide (sid2 ∈ aliveIndices n.multiverse) &&
          !(hasKillFrom (res ++ [NightAction.Kill sid (synthTarget n.multiverse (pick sid))]) sid2)) =
          rest.filter (fun sid2 =>
          decide (sid2 ∈ aliveIndices n.multiverse) && !(hasKillFrom res sid2)) := by
        apply List.filter_congr
        intro sid2 hsid2
        have hne2 : (decide (sid = sid2)) = false := by
          rw [decide_eq_false_iff_not]
          intro hcon
          exact (List.nodup_cons.mp hnodup).1 (hcon ▸ hsid2)
        rw [hasKillFrom_append, hne2]
        simp
      rw [compulsoryStep_pos hcond hanne, ih (List.nodup_cons.mp hnodup).2, hfil,
        if_pos hcond, List.map_cons]
      simp
    · rw [compulsoryStep_neg hcond, if_neg hcond]
      exact ih (List.nodup_cons.mp hnodup).2 res

/-- C8, amended: sanitization keeps exactly the legal submitted actions, in
submission order — an action with an unknown source or target is dropped; a
heal or kill is kept iff its source and target are alive in some world, no
already-kept action of the same kind shares its source, and a heal does not
repeat the healer's previous-night target; an investigation is kept iff its
source is alive in some world and no already-kept investigation shares its
source (a target dead in every world is allowed, contrary to the claim as
stated); then one kill with an oracle-chosen target from the alive set is
appended for every player index alive in some world without a kept kill. -/
theorem claim_C8_sanitization {P : Type} [DecidableEq P] (n : NightSt P)
    (pick : Nat → Nat) (acts : List (NightAction P)) :
    (∀ res src tgt si ti, posOf src n.secretIds = some si →
      posOf tgt n.secretIds = some ti →
      sanitizeStep n res (NightAction.Heal src tgt) =
        (if n.aliveContains src = true ∧ n.aliveContains tgt = true ∧
            hasHealFrom res si = false ∧ n.lastHeals.getD si none ≠ some ti
         then res ++ [NightAction.Heal si ti] else res)) ∧
    (∀ res src tgt si ti, posOf src n.secretIds = some si →
      posOf tgt n.secretIds = some ti →
      sanitizeStep n res (NightAction.Investigate src tgt) =
        (if n.aliveContains src = true ∧ hasInvFrom res si = false
         then res ++ [NightAction.Investigate si ti] else res)) ∧
    (∀ res src tgt si ti, posOf src n.secretIds = some si →
      posOf tgt n.secretIds = some ti →
      sanitizeStep n res (NightAction.Kill src tgt) =
        (if n.aliveContains src = true ∧ n.aliveContains tgt = true ∧
            hasKillFrom res si = false
         then res ++ [NightAction.Kill si ti] else res)) ∧
    (∀ res a src tgt, (a = NightAction.Heal src tgt ∨ a = NightAction.Investigate src tgt ∨
        a = NightAction.Kill src tgt) →
      (posOf src n.secretIds = none ∨ posOf tgt n.secretIds = none) →
      sanitizeStep n res a = res) ∧
    sanitizedNightActions n pick acts =
      acts.foldl (sanitizeStep n) [] ++ synthKills n pick (acts.foldl (sanitizeStep n) []) := by
  refine ⟨?_, ?_, ?_, ?_, ?_⟩
  · intro res src tgt si ti hsi hti
    cases hb1 : n.aliveContains src <;>
      cases hb2 : n.aliveContains tgt <;>
        cases hb3 : hasHealFrom res si <;>
          by_cases h4 : n.lastHeals.getD si none ≠ some ti <;>
            simp [sanitizeStep, hsi, hti, hb1, hb2, hb3, h4, not_not]
  · intro res src tgt si ti hsi hti
    cases hb1 : n.aliveContains src <;>
      cases hb3 : hasInvFrom res si <;>
        simp [sanitizeStep, hsi, hti, hb1, hb3]
  · intro res src tgt si ti hsi hti
    cases hb1 : n.aliveContains src <;>
      cases hb2 : n.aliveContains tgt <;>
        cases hb3 : hasKillFrom res si <;>
          simp [sanitizeStep, hsi, hti, hb1, hb2, hb3]
  · intro res a src tgt hkind hnone
    rcases hkind with h | h | h <;> subst h <;>
      rcases hnone with h2 | h2 <;>
        cases hs : posOf src n.secretIds <;> cases ht : posOf tgt n.secretIds <;>
          simp_all [sanitizeStep]
  · unfold sanitizedNightActions addCompulsoryKills synthKills
    exact addKills_go n pick (List.range n.secretIds.length) (List.nodup_range _) _

/-- Witness for C8: the sanitized list of a concrete three-player night
state decomposes into the kept actions followed by the synthesized kills. -/
theorem claim_C8_sanitization_witness :
    let u : Universe :=
      { alive := [true, true, true]
        roles := [Role.Healer, Role.Werewolf 0, Role.Detective]
        factions := [Faction.Village, Faction.Werewolves, Faction.Village]
        heals := []
        kills := [] }
    let n : NightSt Nat :=
      { secretIds := [4, 5, 6]
        lastHeals := [none, none, none]
        multiverse := [u] }
    sanitizedNightActions n (fun _ => 1) [NightAction.Heal 4 5] =
      ([NightAction.Heal 4 5] : List (NightAction Nat)).foldl (sanitizeStep n) [] ++
      synthKills n (fun _ => 1)
        (([NightAction.Heal 4 5] : List (NightAction Nat)).foldl (sanitizeStep n) []) := by
  intro u n
  exact (claim_C8_sanitization n (fun _ => 1) [NightAction.Heal 4 5]).2.2.2.2

end QWW
